import Mathlib

/-!
# Display driver of convention-nametag-gles2

A shallow embedding of `source/wrappers/driver.hpp`: the per-chip dimension
tables, the `Driver` class declaration (its enumerations, its data members and
the constant `_bufferSize`), and, for the member functions whose bodies live in
`driver.cpp`, models that follow the written specification of the driver.
The function `TextString::LoadText` of `source/drawers/text.cpp` is embedded
from its source.
-/

/-! ## Per-chip dimension tables (`enum Dimensions : int`) -/

namespace SH1106

def XMax : Nat := 132
def YMax : Nat := 64
def XOffset : Nat := 2
def YOffset : Nat := 0
def Width : Nat := XMax - 2 * XOffset
def Height : Nat := YMax
def Size : Nat := Width * Height

end SH1106

namespace SSD1305

def XMax : Nat := 128
def YMax : Nat := 32
def XOffset : Nat := 0
def YOffset : Nat := 0
def Width : Nat := XMax
def Height : Nat := YMax
def Size : Nat := Width * Height

end SSD1305

namespace SSD1322

def XMax : Nat := 256
def YMax : Nat := 64
def XOffset : Nat := 0
def YOffset : Nat := 0
def Width : Nat := XMax
def Height : Nat := YMax
def Size : Nat := Width * Height

end SSD1322

namespace Wrappers.Driver

/-! ## Enumerations of `class Driver` -/

/-- The `enum class ScanDirection`; `Default` is an alias of the first
enumerator and is given below as a definition. -/
inductive ScanDirection where
  | LeftRight_UpDown
  | LeftRight_DownUp
  | RightLeft_UpDown
  | RightLeft_DownUp
  | UpDown_LeftRight
  | UpDown_RightLeft
  | DownUp_LeftRight
  | DownUp_RightLeft
  deriving DecidableEq, Repr, Fintype

namespace ScanDirection

/-- The enumerator `Default = LeftRight_UpDown`. -/
def Default : ScanDirection := LeftRight_UpDown

/-- The underlying value of each enumerator: the first is `0` explicitly, each
following one is its predecessor plus one. -/
def toNat : ScanDirection → Nat
  | LeftRight_UpDown => 0
  | LeftRight_DownUp => 1
  | RightLeft_UpDown => 2
  | RightLeft_DownUp => 3
  | UpDown_LeftRight => 4
  | UpDown_RightLeft => 5
  | DownUp_LeftRight => 6
  | DownUp_RightLeft => 7

/-- All enumerators, in declaration order. -/
def all : List ScanDirection :=
  [LeftRight_UpDown, LeftRight_DownUp, RightLeft_UpDown, RightLeft_DownUp,
   UpDown_LeftRight, UpDown_RightLeft, DownUp_LeftRight, DownUp_RightLeft]

end ScanDirection

/-- The `enum class Mode`. -/
inductive Mode where
  | SH1106
  | SSD1305
  | SSD1322
  deriving DecidableEq, Repr, Fintype

namespace Mode

/-- All modes, in declaration order. -/
def all : List Mode := [SH1106, SSD1305, SSD1322]

end Mode

/-! ## The dimension table read through the mode -/

def XMax : Mode → Nat
  | .SH1106 => SH1106.XMax
  | .SSD1305 => SSD1305.XMax
  | .SSD1322 => SSD1322.XMax

def YMax : Mode → Nat
  | .SH1106 => SH1106.YMax
  | .SSD1305 => SSD1305.YMax
  | .SSD1322 => SSD1322.YMax

def XOffset : Mode → Nat
  | .SH1106 => SH1106.XOffset
  | .SSD1305 => SSD1305.XOffset
  | .SSD1322 => SSD1322.XOffset

def YOffset : Mode → Nat
  | .SH1106 => SH1106.YOffset
  | .SSD1305 => SSD1305.YOffset
  | .SSD1322 => SSD1322.YOffset

def Width : Mode → Nat
  | .SH1106 => SH1106.Width
  | .SSD1305 => SSD1305.Width
  | .SSD1322 => SSD1322.Width

def Height : Mode → Nat
  | .SH1106 => SH1106.Height
  | .SSD1305 => SSD1305.Height
  | .SSD1322 => SSD1322.Height

def Size : Mode → Nat
  | .SH1106 => SH1106.Size
  | .SSD1305 => SSD1305.Size
  | .SSD1322 => SSD1322.Size

/-- Pixels stored in one byte of the native buffer: the divisors `8`, `8` and
`2` that the initialiser of `_bufferSize` applies to the three `Size`s. -/
def pixelsPerByte : Mode → Nat
  | .SH1106 => 8
  | .SSD1305 => 8
  | .SSD1322 => 2

/-- Bits per pixel of a profile ("1-4 bpp buffer"). -/
def bitsPerPixel (m : Mode) : Nat := 8 / pixelsPerByte m

/-- The constant `_bufferSize`: `std::max` over the three per-profile sizes
`SH1106::Size / 8`, `SSD1305::Size / 8` and `SSD1322::Size / 2`. -/
def _bufferSize : Nat :=
  [SH1106.Size / 8, SSD1305.Size / 8, SSD1322.Size / 2].foldl max 0

/-- Bytes of one frame of the visible area at the profile's bit depth. -/
def frameBytes (m : Mode) : Nat := Width m * Height m / pixelsPerByte m

/-- Bytes of one frame of the physical RAM window at the profile's bit depth. -/
def physicalFrameBytes (m : Mode) : Nat := XMax m * YMax m / pixelsPerByte m

/-! ## Scan directions as toggle triples -/

/-- Modelled from the spec: whether a scan direction swaps the axes (the body
of `SetScanDirection` in `driver.cpp` is not available). The directions whose
primary axis is vertical, `UpDown_*` and `DownUp_*`, swap X and Y. -/
def swapsAxes : ScanDirection → Bool
  | .UpDown_LeftRight => true
  | .UpDown_RightLeft => true
  | .DownUp_LeftRight => true
  | .DownUp_RightLeft => true
  | _ => false

/-- Modelled from the spec: whether a scan direction reverses X (`driver.cpp`
is not available). The directions that run right to left reverse X. -/
def reversesX : ScanDirection → Bool
  | .RightLeft_UpDown => true
  | .RightLeft_DownUp => true
  | .UpDown_RightLeft => true
  | .DownUp_RightLeft => true
  | _ => false

/-- Modelled from the spec: whether a scan direction reverses Y (`driver.cpp`
is not available). The directions that run bottom to top reverse Y. -/
def reversesY : ScanDirection → Bool
  | .LeftRight_DownUp => true
  | .RightLeft_DownUp => true
  | .DownUp_LeftRight => true
  | .DownUp_RightLeft => true
  | _ => false

/-- The toggle triple (swap X/Y, reverse X, reverse Y) of a scan direction. -/
def toggles (d : ScanDirection) : Bool × Bool × Bool :=
  (swapsAxes d, reversesX d, reversesY d)

/-- Modelled from the spec: the logical width under a scan direction
(`driver.cpp` is not available). The transform swaps the axes first, so a
direction that swaps them has the panel height as its logical width. -/
def logicalWidth (m : Mode) (d : ScanDirection) : Nat :=
  if swapsAxes d then Height m else Width m

/-- Modelled from the spec: the logical height under a scan direction
(`driver.cpp` is not available). -/
def logicalHeight (m : Mode) (d : ScanDirection) : Nat :=
  if swapsAxes d then Width m else Height m

/-- Modelled from the spec: the logical-to-physical coordinate map ScanTransform
(`driver.cpp` is not available). In order: swap X/Y if the direction swaps
axes, reverse the possibly swapped X as `width - 1 - x` if it reverses X,
reverse Y likewise. Coordinates are pairs `(x, y)`; the physical rectangle is
the panel grid `Width × Height` that the native buffer stores. -/
def scanTransform (m : Mode) (d : ScanDirection) (p : Nat × Nat) : Nat × Nat :=
  let s : Nat × Nat := if swapsAxes d then (p.2, p.1) else p
  let x := if reversesX d then Width m - 1 - s.1 else s.1
  let y := if reversesY d then Height m - 1 - s.2 else s.2
  (x, y)

/-- The logical coordinate rectangle under a scan direction. -/
def logicalRect (m : Mode) (d : ScanDirection) : Set (Nat × Nat) :=
  {p | p.1 < logicalWidth m d ∧ p.2 < logicalHeight m d}

/-- The physical coordinate rectangle of a profile: the panel grid. -/
def physicalRect (m : Mode) : Set (Nat × Nat) :=
  {p | p.1 < Width m ∧ p.2 < Height m}

end Wrappers.Driver

/-! ## The data members of `class Driver` -/

namespace Wrappers

/-- The anonymous struct `_state` with its default member initialisers. -/
structure Driver.State where
  width : Nat := 0
  height : Nat := 0
  scanDir : Driver.ScanDirection := Driver.ScanDirection.Default
  deriving DecidableEq, Repr

/-- The data members of `class Driver`: the byte array `_buffer` (a list of
bytes, of length `_bufferSize` in a well-formed driver), `_state` and `_mode`,
with their default member initialisers. -/
structure Driver where
  _buffer : List Nat
  _state : Driver.State := {}
  _mode : Driver.Mode := Driver.Mode.SSD1322
  deriving DecidableEq, Repr

end Wrappers

namespace Wrappers.Driver

/-- The default argument `scanDir = ScanDirection::Default` of the
constructor. -/
def constructorDefaultScanDir : ScanDirection := ScanDirection.Default

/-- The default argument `color = 0` of `Clear`. -/
def clearDefaultColor : Nat := 0

/-- Modelled from the spec: `GetWidth` (`driver.cpp` is not available) returns
the logical width kept in `_state`. -/
def GetWidth (d : Driver) : Nat := d._state.width

/-- Modelled from the spec: `GetHeight` (`driver.cpp` is not available) returns
the logical height kept in `_state`. -/
def GetHeight (d : Driver) : Nat := d._state.height

/-- Modelled from the spec: `SetScanDirection` (`driver.cpp` is not available)
records the direction and the logical dimensions that go with it; it affects
future writes only and leaves the buffer alone. -/
def SetScanDirection (d : Driver) (scanDir : ScanDirection) : Driver :=
  { d with _state := { width := logicalWidth d._mode scanDir,
                       height := logicalHeight d._mode scanDir,
                       scanDir := scanDir } }

/-- Modelled from the spec: the in-memory effect of the constructor
(`driver.cpp` is not available): select the profile, zero the buffer, set the
scan direction. The bus traffic of reset and initialisation is not part of the
object. -/
def Construct (mode : Mode) (scanDir : ScanDirection) : Driver :=
  SetScanDirection { _buffer := List.replicate _bufferSize 0, _mode := mode } scanDir

/-- A driver as the class keeps it: the array has `_bufferSize` elements, each
a byte, and the logical dimensions in `_state` are those of the mode and scan
direction. -/
def WellFormed (d : Driver) : Prop :=
  d._buffer.length = _bufferSize ∧
  (∀ b ∈ d._buffer, b < 256) ∧
  d._state.width = logicalWidth d._mode d._state.scanDir ∧
  d._state.height = logicalHeight d._mode d._state.scanDir

instance (d : Driver) : Decidable (WellFormed d) := by
  unfold WellFormed; infer_instance

/-! ## Pixel packing -/

/-- Modelled from the spec: the byte of the native buffer that holds a physical
pixel (`driver.cpp` is not available). Paged, 1 bit per pixel:
`(y / 8) * widthBytes + x` with one byte per visible column of a page, so
`widthBytes` is `Width`; `x` is the visible column, the horizontal offset of
the RAM window being carried by the column address command
(`SelectColumnLow = 0x02` on SH1106), which is what puts pixel (0, 0) in byte 0
and pixel (127, 63) in the last byte of the last page on chip A.
Linear, 4 bits per pixel: `y * (width / 2) + x / 2`. -/
def byteIndex (m : Mode) (p : Nat × Nat) : Nat :=
  match m with
  | .SH1106 => (p.2 / 8) * Width m + p.1
  | .SSD1305 => (p.2 / 8) * Width m + p.1
  | .SSD1322 => p.2 * (Width m / 2) + p.1 / 2

/-- Modelled from the spec: the byte after a pixel is packed into it
(`driver.cpp` is not available). Paged: bit `y mod 8` takes the colour masked
to 1 bit. Linear: the high nibble if `x` is even, else the low nibble, takes
the colour masked to 4 bits; the other nibble is kept (read-modify-write). -/
def packPixel (m : Mode) (p : Nat × Nat) (b c : Nat) : Nat :=
  match m with
  | .SH1106 => (b &&& (0xFF ^^^ (1 <<< (p.2 % 8)))) ||| ((c &&& 1) <<< (p.2 % 8))
  | .SSD1305 => (b &&& (0xFF ^^^ (1 <<< (p.2 % 8)))) ||| ((c &&& 1) <<< (p.2 % 8))
  | .SSD1322 =>
    if p.1 % 2 = 0 then (b &&& 0x0F) ||| ((c &&& 0x0F) <<< 4)
    else (b &&& 0xF0) ||| (c &&& 0x0F)

/-- Modelled from the spec: raw readback of the packed location of a physical
pixel in a byte (`driver.cpp` is not available): the bit `y mod 8` on the paged
chips, the high nibble if `x` is even, else the low nibble, on the linear
chip. -/
def unpackPixel (m : Mode) (p : Nat × Nat) (b : Nat) : Nat :=
  match m with
  | .SH1106 => (b >>> (p.2 % 8)) &&& 1
  | .SSD1305 => (b >>> (p.2 % 8)) &&& 1
  | .SSD1322 => if p.1 % 2 = 0 then (b >>> 4) &&& 0x0F else b &&& 0x0F

/-- The slot of a physical pixel inside its byte: the bit number on the paged
chips, the parity of `x` (0 for the high nibble) on the linear chip. -/
def slot (m : Mode) (p : Nat × Nat) : Nat :=
  match m with
  | .SH1106 => p.2 % 8
  | .SSD1305 => p.2 % 8
  | .SSD1322 => p.1 % 2

/-- The colour masked to the bit depth of the profile. -/
def maskColor (m : Mode) (c : Nat) : Nat := c % 2 ^ bitsPerPixel m

/-- Byte `i` of the native buffer. -/
def bufferByte (d : Driver) (i : Nat) : Nat := d._buffer.getD i 0

/-- Modelled from the spec: `SetColor` (`driver.cpp` is not available) maps the
logical pixel through the scan transform and packs the colour into its byte,
in memory only. -/
def SetColor (d : Driver) (x y c : Nat) : Driver :=
  let p := scanTransform d._mode d._state.scanDir (x, y)
  let i := byteIndex d._mode p
  { d with _buffer := d._buffer.set i (packPixel d._mode p (bufferByte d i) c) }

/-- Modelled from the spec: raw readback of the packed location of the logical
pixel `(x, y)` (`driver.cpp` is not available): the pixel goes through the scan
transform, as in `SetColor`, and its slot is read from its byte. -/
def readPixel (d : Driver) (x y : Nat) : Nat :=
  let p := scanTransform d._mode d._state.scanDir (x, y)
  unpackPixel d._mode p (bufferByte d (byteIndex d._mode p))

/-- Modelled from the spec: the byte `Clear` broadcasts (`driver.cpp` is not
available): `0x00` or `0xFF` from the 1-bit colour on the paged chips, the
4-bit colour in both nibbles on the linear chip. -/
def broadcastByte (m : Mode) (c : Nat) : Nat :=
  match m with
  | .SH1106 => if c &&& 1 = 1 then 0xFF else 0x00
  | .SSD1305 => if c &&& 1 = 1 then 0xFF else 0x00
  | .SSD1322 => ((c &&& 0x0F) <<< 4) ||| (c &&& 0x0F)

/-- Modelled from the spec: `Clear` (`driver.cpp` is not available) fills the
entire buffer with the broadcast byte of the colour. -/
def Clear (d : Driver) (color : Nat) : Driver :=
  { d with _buffer := List.replicate _bufferSize (broadcastByte d._mode color) }

/-- Modelled from the spec: the downsampling of one source sample to the bit
depth of the profile (`driver.cpp` is not available): a threshold on the 1-bit
chips, a shift of the 8-bit sample to 4 bits on the 4-bit chip. The spec does
not give the threshold, so it is a parameter. -/
def downsample (threshold : Nat) (m : Mode) (v : Nat) : Nat :=
  match m with
  | .SH1106 => if threshold ≤ v then 1 else 0
  | .SSD1305 => if threshold ≤ v then 1 else 0
  | .SSD1322 => v >>> 4

/-- Modelled from the spec: `CopyGLBuffer` (`driver.cpp` is not available): one
linear pass over the `width * height` samples of the source, in logical
row-major order, each downsampled and packed by the rule of `SetColor`. -/
def CopyGLBuffer (threshold : Nat) (d : Driver) (glBuffer : List Nat) : Driver :=
  (List.range (GetWidth d * GetHeight d)).foldl
    (fun acc i =>
      SetColor acc (i % GetWidth d) (i / GetWidth d)
        (downsample threshold d._mode (glBuffer.getD i 0)))
    d

/-- The inverse of the scan transform: undo the Y reversal, the X reversal and
then the swap. -/
def scanInverse (m : Mode) (d : ScanDirection) (q : Nat × Nat) : Nat × Nat :=
  let x := if reversesX d then Width m - 1 - q.1 else q.1
  let y := if reversesY d then Height m - 1 - q.2 else q.2
  if swapsAxes d then (y, x) else (x, y)

/-! ## Flushing the buffer, and the lifecycle of the written specification -/

/-- Modelled from the spec: the data blocks of one flush of the native buffer,
in order (`driver.cpp` is not available): one burst on the linear chip and one
burst per page on the paged chips, a page being `Width` consecutive bytes. The
addressing commands sent before each burst are left out. -/
def frameBursts (d : Driver) : List (List Nat) :=
  match d._mode with
  | .SH1106 =>
    (List.range (Height .SH1106 / 8)).map fun page =>
      (d._buffer.drop (page * Width .SH1106)).take (Width .SH1106)
  | .SSD1305 =>
    (List.range (Height .SSD1305 / 8)).map fun page =>
      (d._buffer.drop (page * Width .SSD1305)).take (Width .SSD1305)
  | .SSD1322 => [d._buffer.take (frameBytes .SSD1322)]

/-- Modelled from the spec: the lifecycle states DriverState of the written
specification. -/
inductive DriverState where
  | PoweredOff
  | Initializing
  | Ready
  deriving DecidableEq, Repr

/-- Modelled from the spec: a driver together with its lifecycle state. The
declaration of `class Driver` in `driver.hpp` has no data member for the
state, so it is kept beside the declared members. -/
structure Tracked where
  driver : Driver
  lifecycle : DriverState

/-- Modelled from the spec: the driver before its reset: the profile is
selected, the buffer is zeroed, and the lifecycle starts at `PoweredOff`. -/
def Unpowered (mode : Mode) (scanDir : ScanDirection) : Tracked :=
  { driver := Construct mode scanDir, lifecycle := DriverState.PoweredOff }

/-- Modelled from the spec: `Reset` asserts and deasserts the reset line and
takes `PoweredOff` to `Initializing`. The specification gives `Reset` no other
transition: in the other states the lifecycle stays as it is. -/
def Reset (t : Tracked) : Tracked :=
  { driver := t.driver,
    lifecycle :=
      match t.lifecycle with
      | .PoweredOff => DriverState.Initializing
      | .Initializing => DriverState.Initializing
      | .Ready => DriverState.Ready }

/-- Modelled from the spec: `InitRegistry` sends the fixed initialisation
sequence of the chip and takes `Initializing` to `Ready`. The specification
gives it no other transition. -/
def InitRegistry (t : Tracked) : Tracked :=
  { driver := t.driver,
    lifecycle :=
      match t.lifecycle with
      | .PoweredOff => DriverState.PoweredOff
      | .Initializing => DriverState.Ready
      | .Ready => DriverState.Ready }

/-- Modelled from the spec: `SetPanelPower` is allowed in any state and sends
the panel on/off opcode; power-off from `Ready` returns to `PoweredOff`. The
specification gives it no other transition: power-on leaves the lifecycle as
it is, `Ready` being reached through reset and initialisation only. The RAM
contents persist, and the native buffer is not touched. -/
def SetPanelPower (t : Tracked) (powerOn : Bool) : Tracked :=
  { driver := t.driver,
    lifecycle :=
      match t.lifecycle, powerOn with
      | .Ready, false => DriverState.PoweredOff
      | s, _ => s }

/-- Modelled from the spec: `Display` requires `Ready`. In `Ready` it flushes
the native buffer to the bus as `frameBursts`; in any other state the call is
rejected: it reports a failure and sends nothing. -/
def Display (t : Tracked) : Except String (List (List Nat)) :=
  match t.lifecycle with
  | .Ready => Except.ok (frameBursts t.driver)
  | .PoweredOff => Except.error "Display: the driver is not Ready"
  | .Initializing => Except.error "Display: the driver is not Ready"

namespace Tracked

/-- Modelled from the spec: construction selects the profile, zeroes the
buffer, and runs reset and initialisation. -/
def Construct (mode : Mode) (scanDir : ScanDirection) : Tracked :=
  InitRegistry (Reset (Unpowered mode scanDir))

end Tracked

/-- The calls that can be made on a driver, as far as the lifecycle goes. -/
inductive Call where
  | Reset
  | InitRegistry
  | SetPanelPower (powerOn : Bool)
  | Display
  | SetColor (x y c : Nat)
  | Clear (color : Nat)
  deriving DecidableEq, Repr

/-- The driver after one call. `Display` changes neither the buffer nor the
lifecycle; `SetColor` and `Clear` work on the buffer only. -/
def Call.apply (t : Tracked) : Call → Tracked
  | .Reset => Wrappers.Driver.Reset t
  | .InitRegistry => Wrappers.Driver.InitRegistry t
  | .SetPanelPower powerOn => Wrappers.Driver.SetPanelPower t powerOn
  | .Display => t
  | .SetColor x y c => { driver := Wrappers.Driver.SetColor t.driver x y c, lifecycle := t.lifecycle }
  | .Clear color => { driver := Wrappers.Driver.Clear t.driver color, lifecycle := t.lifecycle }

end Wrappers.Driver
/-! ## Command opcodes (`enum Commands : int`) used below, with their documented ranges -/

namespace SH1106.Registry

/-- The low-nibble column command; "Note LowColumn being 2 due to 128<->132
pixel discrepancy". Documented range `0x0 - 0xF`. -/
def SelectColumnLow : Nat := 0x02

/-- The high-nibble column command. Documented range `0x10 - 0x1F`. -/
def SelectColumnHigh : Nat := 0x10

/-- The start-line command. Documented range `0x40 - 0x7F`. -/
def SelectLine : Nat := 0x40

/-- The page-address command. Documented range `0xB0 - 0xB7`. -/
def Page : Nat := 0xB0

/-- The range `( 0x0 -  0xF)` written beside `SelectColumnLow`. -/
def SelectColumnLowRange : Nat × Nat := (0x0, 0xF)

/-- The range `(0x10 - 0x1F)` written beside `SelectColumnHigh`. -/
def SelectColumnHighRange : Nat × Nat := (0x10, 0x1F)

/-- The range `(0x40 - 0x7F)` written beside `SelectLine`. -/
def SelectLineRange : Nat × Nat := (0x40, 0x7F)

/-- The range `0xB0 - 0xB7` written beside `Page`. -/
def PageRange : Nat × Nat := (0xB0, 0xB7)

end SH1106.Registry

namespace SSD1305.Registry

/-- The low-nibble column command, operand range `[0x0-0xF]`. -/
def SelectColumnLow : Nat := 0x00

/-- The high-nibble column command, operand range `[0x0-0xF]`. -/
def SelectColumnHigh : Nat := 0x10

/-- The operand range `[0x0-0xF]` written beside `SelectColumnLow`. -/
def SelectColumnLowRange : Nat × Nat := (0x0, 0xF)

end SSD1305.Registry

namespace Wrappers.Driver

/-- The column that a pair of column commands addresses: "Divide the column
address into 4 higher bits and 4 lower bits" (the note on `SelectColumnLow` in
the header); each command byte carries its nibble in its low four bits. -/
def columnAddress (highCommand lowCommand : Nat) : Nat :=
  ((highCommand &&& 0x0F) <<< 4) ||| (lowCommand &&& 0x0F)

/-! ## Button pins (`struct Pins`) -/

namespace Pins

def KeyUpPin : Nat := 6
def KeyDownPin : Nat := 19
def KeyLeftPin : Nat := 5
def KeyRightPin : Nat := 26
def KeyPressPin : Nat := 13
def Key1Pin : Nat := 21
def Key2Pin : Nat := 20
def Key3Pin : Nat := 16

/-- The eight buttons, one for each reader `GetKeyUp` .. `GetKey3` that the
class declares. -/
inductive Button where
  | KeyUp
  | KeyDown
  | KeyLeft
  | KeyRight
  | KeyPress
  | Key1
  | Key2
  | Key3
  deriving DecidableEq, Repr, Fintype

/-- The enumerator of `PinIndices` named after each button. -/
def PinIndices : Button → Nat
  | .KeyUp => KeyUpPin
  | .KeyDown => KeyDownPin
  | .KeyLeft => KeyLeftPin
  | .KeyRight => KeyRightPin
  | .KeyPress => KeyPressPin
  | .Key1 => Key1Pin
  | .Key2 => Key2Pin
  | .Key3 => Key3Pin

/-- The buttons in declaration order. -/
def buttons : List Button :=
  [.KeyUp, .KeyDown, .KeyLeft, .KeyRight, .KeyPress, .Key1, .Key2, .Key3]

end Pins

end Wrappers.Driver

/-! ## `TextString::LoadText` (`source/drawers/text.cpp`)

The `unsigned` and `int` quantities of the function are 32-bit machine
integers: `unsigned` arithmetic is taken modulo `2 ^ 32`, and an `int` result
outside the `int` range is taken in two's complement. The header `text.hpp`,
which declares `_texture`, is not available: the width in bits of the integer
type of `_texture.width` and `_texture.height` is the parameter `texBits`, at
least 32 in every theorem; sums and products in that type are taken modulo
`2 ^ texBits`. The bytes of the texture are stored modulo 256, as `uint8_t`
is. The vertex array holds floating-point numbers and is left out. -/

namespace Drawers

/-- What `LoadText` reads of `_face->glyph` after `FT_Load_Char` with
`FT_LOAD_RENDER`: `bitmap.width`, `bitmap.rows` (both `unsigned`),
`bitmap_top` (a signed `int`) and the bytes of `bitmap.buffer`. -/
structure Glyph where
  width : Nat
  rows : Nat
  bitmap_top : Int
  buffer : List Nat
  deriving DecidableEq, Repr

namespace TextString

/-- The value of an `unsigned` expression whose exact value is `n`: `unsigned`
arithmetic wraps modulo `2 ^ 32`. -/
def wrapUnsigned (n : Nat) : Nat := n % 2 ^ 32

/-- The conversion of an `int` to `unsigned`. -/
def toUnsigned (z : Int) : Nat := (z % 2 ^ 32).toNat

/-- The conversion of an `unsigned` to `int` (`static_cast<int>`), in two's
complement. -/
def toInt (n : Nat) : Int :=
  if n % 2 ^ 32 < 2 ^ 31 then ((n % 2 ^ 32 : Nat) : Int)
  else ((n % 2 ^ 32 : Nat) : Int) - 2 ^ 32

/-- The value of an `int` expression whose exact value is `z`. -/
def wrapInt (z : Int) : Int := toInt (toUnsigned z)

/-- The value, in an integer type of `bits` bits, of an expression whose exact
value is `n`. -/
def wrapBits (bits n : Nat) : Nat := n % 2 ^ bits

/-- The conversion of an `int` to an integer type of `bits` bits, as a bit
pattern. -/
def toBits (bits : Nat) (z : Int) : Nat := (z % 2 ^ bits).toNat

/-- The quantities the measuring loop updates: `_texture.width` and the locals
`glyphHeight`, `glyphLowth` and `charCount`. -/
structure Measure where
  width : Nat
  glyphHeight : Int
  glyphLowth : Int
  charCount : Int
  deriving DecidableEq, Repr

/-- The body of the measuring loop for one loaded glyph. The sum
`_texture.width += bitmap.width` is taken in the type of `_texture.width`. The
difference `bitmap.rows - bitmap_top` is taken in `unsigned` and cast back to
`int`. -/
def measureStep (texBits : Nat) (s : Measure) (glyph : Glyph) : Measure :=
  { width := wrapBits texBits (s.width + glyph.width),
    glyphHeight := max s.glyphHeight glyph.bitmap_top,
    glyphLowth :=
      max s.glyphLowth (toInt (toUnsigned ((glyph.rows : Int) - glyph.bitmap_top))),
    charCount := wrapInt (s.charCount + 1) }

/-- The measuring loop over the characters of the text (the characters before
the terminating NUL); a character that `FT_Load_Char` fails to load throws. -/
def measureLoop (texBits : Nat) (load : Char → Option Glyph) :
    List Char → Measure → Except String Measure
  | [], s => Except.ok s
  | c :: cs, s =>
    match load c with
    | none => Except.error "failed to load"
    | some glyph => measureLoop texBits load cs (measureStep texBits s glyph)

/-- The destination index `textureAddr` of the copy loop, an `unsigned`:
`yCoord * _texture.width + xCoord` with `xCoord = xOffset + x`,
`yCoord = yOffset + y`, both `unsigned`, and the `int`
`yOffset = glyphHeight - glyph->bitmap_top`, which `yOffset + y` converts to
`unsigned`. Whatever the type of `_texture.width`, of 32 bits or more, the
value stored in the `unsigned` is the exact value modulo `2 ^ 32`. -/
def textureAddr (textureWidth : Nat) (glyphHeight : Int) (xOffset : Nat) (glyph : Glyph)
    (x y : Nat) : Nat :=
  let yOffset : Int := wrapInt (glyphHeight - glyph.bitmap_top)
  let xCoord : Nat := wrapUnsigned (xOffset + x)
  let yCoord : Nat := wrapUnsigned (toUnsigned yOffset + y)
  wrapUnsigned (yCoord * textureWidth + xCoord)

/-- The source byte `glyph->bitmap.buffer[y * glyph->bitmap.width + x]`, the
index being an `unsigned`. -/
def letterPixValue (glyph : Glyph) (x y : Nat) : Nat :=
  glyph.buffer.getD (wrapUnsigned (y * glyph.width + x)) 0

/-- The statement `_texture.buffer[textureAddr] += letterPixValue` on an array
of `uint8_t`. An index outside the array is undefined behaviour in the
source; here it leaves the array as it is. -/
def addPixel (buffer : List Nat) (addr : Nat) (value : Nat) : List Nat :=
  buffer.set addr ((buffer.getD addr 0 + value) % 256)

/-- The two nested loops that copy the bitmap of one glyph into the texture. -/
def copyGlyph (textureWidth : Nat) (glyphHeight : Int) (xOffset : Nat) (glyph : Glyph)
    (buffer : List Nat) : List Nat :=
  (List.range glyph.rows).foldl
    (fun buf y =>
      (List.range glyph.width).foldl
        (fun buf x =>
          addPixel buf (textureAddr textureWidth glyphHeight xOffset glyph x y)
            (letterPixValue glyph x y))
        buf)
    buffer

/-- The copy loop over the characters of the text: the glyph is loaded again
(the result of `FT_Load_Char` is not checked here, the glyph slot is read
whatever it holds), its bitmap is copied and the `unsigned` `xOffset` advances
by its width. The state is the texture buffer and `xOffset`. -/
def copyLoop (reload : Char → Glyph) (textureWidth : Nat) (glyphHeight : Int) :
    List Char → List Nat × Nat → List Nat × Nat
  | [], st => st
  | c :: cs, st =>
    copyLoop reload textureWidth glyphHeight cs
      (copyGlyph textureWidth glyphHeight st.2 (reload c) st.1,
        wrapUnsigned (st.2 + (reload c).width))

/-- The members of `_texture` that `LoadText` sets. -/
structure Texture where
  width : Nat
  height : Nat
  buffer : List Nat
  deriving DecidableEq, Repr

/-- What `LoadText` leaves in the object: the texture and the counts of
`_text`. -/
structure Loaded where
  texture : Texture
  charCount : Int
  quadCount : Int
  vertexCount : Int
  deriving DecidableEq, Repr

/-- The state of the measuring loop on entry: `_texture.width` as the object
holds it, the three locals zero. -/
def measureInit (width0 : Nat) : Measure :=
  { width := width0, glyphHeight := 0, glyphLowth := 0, charCount := 0 }

/-- The number of bytes `std::make_unique<uint8_t[]>` is asked for: the
product `_texture.width * _texture.height`, taken in the type of the two
members. -/
def bufferBytes (texBits width height : Nat) : Nat := wrapBits texBits (width * height)

/-- The function `LoadText`: measure, store the `int` sum
`glyphHeight + glyphLowth` in `_texture.height`, allocate a zeroed buffer of
`_texture.width * _texture.height` bytes, copy. `texBits` is the width in bits
of the type of `_texture.width` and `_texture.height`, `load` is `FT_Load_Char`
in the measuring loop, `reload` the glyph slot after `FT_Load_Char` in the copy
loop, `width0` the value of `_texture.width` on entry. -/
def LoadText (texBits : Nat) (load : Char → Option Glyph) (reload : Char → Glyph)
    (width0 : Nat) (text : List Char) : Except String Loaded :=
  match measureLoop texBits load text (measureInit width0) with
  | Except.error e => Except.error e
  | Except.ok m =>
    let height : Nat := toBits texBits (wrapInt (m.glyphHeight + m.glyphLowth))
    let buffer : List Nat := List.replicate (bufferBytes texBits m.width height) 0
    Except.ok
      { texture :=
          { width := m.width,
            height := height,
            buffer := (copyLoop reload m.width m.glyphHeight text (buffer, 0)).1 },
        charCount := m.charCount,
        quadCount := m.charCount,
        vertexCount := wrapInt (m.charCount * 4) }

/-! ### The writes of the copy loop, and the copy with plain assignment -/

/-- The writes of the copy of one glyph, in program order: destination index
and source byte. -/
def glyphWrites (textureWidth : Nat) (glyphHeight : Int) (xOffset : Nat) (glyph : Glyph) :
    List (Nat × Nat) :=
  (List.product (List.range glyph.rows) (List.range glyph.width)).map fun p =>
    (textureAddr textureWidth glyphHeight xOffset glyph p.2 p.1, letterPixValue glyph p.2 p.1)

/-- The writes of the whole copy loop, in program order. -/
def copyWrites (reload : Char → Glyph) (textureWidth : Nat) (glyphHeight : Int) :
    List Char → Nat → List (Nat × Nat)
  | [], _ => []
  | c :: cs, xOffset =>
    glyphWrites textureWidth glyphHeight xOffset (reload c) ++
      copyWrites reload textureWidth glyphHeight cs (wrapUnsigned (xOffset + (reload c).width))

/-- The value of `xOffset` when the copy loop, entered with `xOffset`, reaches
character `i` of the text. -/
def xOffsetFrom (reload : Char → Glyph) : List Char → Nat → Nat → Nat
  | [], xOffset, _ => xOffset
  | _ :: _, xOffset, 0 => xOffset
  | c :: cs, xOffset, i + 1 =>
    xOffsetFrom reload cs (wrapUnsigned (xOffset + (reload c).width)) i

/-- The value of `xOffset` when the copy loop of `LoadText` reaches character
`i`. -/
def xOffsetAt (reload : Char → Glyph) (text : List Char) (i : Nat) : Nat :=
  xOffsetFrom reload text 0 i

/-- Plain assignment `_texture.buffer[textureAddr] = letterPixValue`. -/
def setPixel (buffer : List Nat) (addr : Nat) (value : Nat) : List Nat :=
  buffer.set addr (value % 256)

/-- The metrics of a glyph: bitmap width, rows and `bitmap_top`. -/
def metrics (glyph : Glyph) : Nat × Nat × Int :=
  (glyph.width, glyph.rows, glyph.bitmap_top)

/-- Each character loads in the measuring pass, and the copying pass sees the
same metrics for it. -/
def SameMetrics (load : Char → Option Glyph) (reload : Char → Glyph) (text : List Char) :
    Prop :=
  ∀ c ∈ text, ∃ glyph, load c = some glyph ∧ metrics glyph = metrics (reload c)

/-- Glyph loads are repeatable: the copying pass sees the glyph the measuring
pass loaded, and its bitmap consists of bytes. -/
def Repeatable (load : Char → Option Glyph) (reload : Char → Glyph) (text : List Char) :
    Prop :=
  ∀ c ∈ text, load c = some (reload c) ∧ ∀ b ∈ (reload c).buffer, b < 256

/-! ### The size of the texture in exact arithmetic -/

/-- The sum of the bitmap widths of the glyphs of a text. -/
def totalWidth (reload : Char → Glyph) (text : List Char) : Nat :=
  (text.map fun c => (reload c).width).sum

/-- The largest `bitmap_top` of the glyphs of a text, at least 0. -/
def maxTop (reload : Char → Glyph) (text : List Char) : Int :=
  text.foldl (fun a c => max a (reload c).bitmap_top) 0

/-- The largest `bitmap.rows - bitmap_top` of the glyphs of a text, at least
0. -/
def maxLow (reload : Char → Glyph) (text : List Char) : Int :=
  text.foldl (fun a c => max a (((reload c).rows : Int) - (reload c).bitmap_top)) 0

/-- The texture of a text fits 32-bit arithmetic: its exact width, its exact
height and their product are below `2 ^ 31`, the range of `int`. -/
def FitsInt (reload : Char → Glyph) (width0 : Nat) (text : List Char) : Prop :=
  ((width0 + totalWidth reload text : Nat) : Int) < 2 ^ 31 ∧
  maxTop reload text + maxLow reload text < 2 ^ 31 ∧
  ((width0 + totalWidth reload text : Nat) : Int) *
    (maxTop reload text + maxLow reload text) < 2 ^ 31

/-! ### A small font for concrete runs -/

/-- A glyph two pixels wide standing on the baseline. -/
def sampleGlyphH : Glyph :=
  { width := 2, rows := 3, bitmap_top := 3, buffer := [255, 0, 255, 255, 255, 0] }

/-- A glyph one pixel wide that reaches two rows below the baseline. -/
def sampleGlyphJ : Glyph :=
  { width := 1, rows := 4, bitmap_top := 2, buffer := [9, 0, 9, 9] }

/-- The glyph slot after loading a character of the small font. -/
def sampleReload (c : Char) : Glyph :=
  if c = 'H' then sampleGlyphH else sampleGlyphJ

/-- Loading a character of the small font: only `H` and `j` exist. -/
def sampleLoad (c : Char) : Option Glyph :=
  if c = 'H' ∨ c = 'j' then some (sampleReload c) else none

/-! ### A font of square glyphs and a long text -/

/-- A glyph of 64 by 64 pixels standing on the baseline, every pixel 255. -/
def squareGlyph : Glyph :=
  { width := 64, rows := 64, bitmap_top := 64, buffer := List.replicate 4096 255 }

/-- The glyph slot of the font in which every character is `squareGlyph`. -/
def squareReload (_ : Char) : Glyph := squareGlyph

/-- Loading a character of the font of square glyphs. -/
def squareLoad (c : Char) : Option Glyph := some (squareReload c)

/-- A text of 1065300 characters. -/
def longText : List Char := List.replicate 1065300 'M'

/-! ### A glyph of more than `2 ^ 31` rows -/

/-- A glyph one pixel wide and 3221225472 rows high, its top on the baseline;
the bitmap itself is not given. -/
def tallGlyph : Glyph :=
  { width := 1, rows := 3221225472, bitmap_top := 0, buffer := [] }

/-- The glyph slot of the font in which every character is `tallGlyph`. -/
def tallReload (_ : Char) : Glyph := tallGlyph

/-- Loading a character of the font of tall glyphs. -/
def tallLoad (c : Char) : Option Glyph := some (tallReload c)

end TextString

end Drawers
/-! ## Theorems: dimension tables, buffer capacity, scan directions -/

namespace Wrappers.Driver

/-- C1: for each of the three modes the bytes of one frame at the bit depth of
the profile fit the shared buffer: `Width * Height / 8` on the two 1-bit chips
and `Width * Height / 2` on the 4-bit chip are at most `_bufferSize`, and
likewise with the physical `XMax * YMax` in place of `Width * Height`. -/
theorem frame_fits_bufferSize :
    (SH1106.Width * SH1106.Height / 8 ≤ _bufferSize ∧
      SSD1305.Width * SSD1305.Height / 8 ≤ _bufferSize ∧
      SSD1322.Width * SSD1322.Height / 2 ≤ _bufferSize) ∧
    (SH1106.XMax * SH1106.YMax / 8 ≤ _bufferSize ∧
      SSD1305.XMax * SSD1305.YMax / 8 ≤ _bufferSize ∧
      SSD1322.XMax * SSD1322.YMax / 2 ≤ _bufferSize) ∧
    ∀ m : Mode,
      frameBytes m ≤ _bufferSize ∧ physicalFrameBytes m ≤ _bufferSize ∧
      Width m * Height m * bitsPerPixel m / 8 ≤ _bufferSize ∧
      XMax m * YMax m * bitsPerPixel m / 8 ≤ _bufferSize := by
  refine ⟨by decide, by decide, ?_⟩
  intro m
  cases m <;> decide

/-- C5: the per-chip dimension table equals the specified profiles, and for
every chip `YOffset = 0`, `Width = XMax - 2 * XOffset` (over the integers, so
nothing is truncated), `Height = YMax` and `Size = Width * Height`. -/
theorem dimension_table :
    (SH1106.XMax = 132 ∧ SH1106.YMax = 64 ∧ SH1106.XOffset = 2 ∧
      SH1106.Width = 128 ∧ SH1106.Height = 64) ∧
    (SSD1305.XMax = 128 ∧ SSD1305.YMax = 32 ∧ SSD1305.XOffset = 0 ∧
      SSD1305.Width = 128 ∧ SSD1305.Height = 32) ∧
    (SSD1322.XMax = 256 ∧ SSD1322.YMax = 64 ∧ SSD1322.XOffset = 0 ∧
      SSD1322.Width = 256 ∧ SSD1322.Height = 64) ∧
    ∀ m : Mode,
      YOffset m = 0 ∧ (Width m : Int) = (XMax m : Int) - 2 * (XOffset m : Int) ∧
      Height m = YMax m ∧ Size m = Width m * Height m := by
  refine ⟨by decide, by decide, by decide, ?_⟩
  intro m
  cases m <;> decide

/-- C6: `_bufferSize` is exactly the maximum of the three per-profile frame
sizes `SH1106::Size / 8`, `SSD1305::Size / 8` and `SSD1322::Size / 2`; it is
8192 bytes, attained by the SSD1322 profile (256 * 64 pixels, 2 per byte) and
strictly larger than the 1024 and 512 bytes of the two 1-bit profiles. -/
theorem bufferSize_is_max :
    _bufferSize = max (SH1106.Size / 8) (max (SSD1305.Size / 8) (SSD1322.Size / 2)) ∧
    (SH1106.Size / 8 ≤ _bufferSize ∧ SSD1305.Size / 8 ≤ _bufferSize ∧
      SSD1322.Size / 2 ≤ _bufferSize) ∧
    _bufferSize = 8192 ∧
    _bufferSize = SSD1322.Size / 2 ∧ SSD1322.Size = 256 * 64 ∧
    SH1106.Size / 8 = 1024 ∧ SSD1305.Size / 8 = 512 ∧
    SH1106.Size / 8 < _bufferSize ∧ SSD1305.Size / 8 < _bufferSize := by
  decide

/-- C7: `ScanDirection` has exactly 8 pairwise-distinct values numbered 0 to 7,
in one-to-one correspondence with the 8 combinations of the three toggles;
values 0-3 do not swap the axes and values 4-7 do; `Default` is
`LeftRight_UpDown`, value 0, with no toggle set and the identity as its
transform; it is the default argument of the constructor and the initial value
of `_state.scanDir`. -/
theorem scanDirection_values :
    Fintype.card ScanDirection = 8 ∧
    Function.Injective ScanDirection.toNat ∧
    (∀ n : Nat, (∃ d : ScanDirection, d.toNat = n) ↔ n < 8) ∧
    Function.Bijective toggles ∧
    (∀ d : ScanDirection, swapsAxes d = false ↔ d.toNat ≤ 3) ∧
    (∀ d : ScanDirection, swapsAxes d = true ↔ 4 ≤ d.toNat ∧ d.toNat ≤ 7) ∧
    ScanDirection.Default = ScanDirection.LeftRight_UpDown ∧
    ScanDirection.Default.toNat = 0 ∧
    toggles ScanDirection.Default = (false, false, false) ∧
    (∀ (m : Mode) (p : Nat × Nat), scanTransform m ScanDirection.Default p = p) ∧
    constructorDefaultScanDir = ScanDirection.Default ∧
    ({} : State).scanDir = ScanDirection.Default ∧
    ({ _buffer := [] } : Driver)._state.scanDir = ScanDirection.Default := by
  refine ⟨by decide, ?_, ?_, ?_, ?_, ?_, rfl, rfl, rfl, ?_, rfl, rfl, rfl⟩
  · intro a b h
    cases a <;> cases b <;> first | rfl | (exact absurd h (by decide))
  · intro n
    constructor
    · rintro ⟨d, rfl⟩
      cases d <;> decide
    · intro h
      interval_cases n
      · exact ⟨.LeftRight_UpDown, rfl⟩
      · exact ⟨.LeftRight_DownUp, rfl⟩
      · exact ⟨.RightLeft_UpDown, rfl⟩
      · exact ⟨.RightLeft_DownUp, rfl⟩
      · exact ⟨.UpDown_LeftRight, rfl⟩
      · exact ⟨.UpDown_RightLeft, rfl⟩
      · exact ⟨.DownUp_LeftRight, rfl⟩
      · exact ⟨.DownUp_RightLeft, rfl⟩
  · decide
  · intro d
    cases d <;> decide
  · intro d
    cases d <;> decide
  · intro m p
    rfl

end Wrappers.Driver

namespace Wrappers.Driver

theorem Width_pos (m : Mode) : 0 < Width m := by cases m <;> decide

theorem Height_pos (m : Mode) : 0 < Height m := by cases m <;> decide

/-- The scan transform sends the logical rectangle into the panel grid. -/
theorem scanTransform_mapsTo (m : Mode) (d : ScanDirection) (p : Nat × Nat)
    (hp : p ∈ logicalRect m d) : scanTransform m d p ∈ physicalRect m := by
  obtain ⟨x, y⟩ := p
  have hW := Width_pos m
  have hH := Height_pos m
  simp only [logicalRect, logicalWidth, logicalHeight, Set.mem_setOf_eq] at hp
  simp only [physicalRect, scanTransform, Set.mem_setOf_eq]
  cases d <;> simp [swapsAxes, reversesX, reversesY] at hp ⊢ <;> omega

/-- The scan transform is injective on the logical rectangle. -/
theorem scanTransform_injOn (m : Mode) (d : ScanDirection) (p q : Nat × Nat)
    (hp : p ∈ logicalRect m d) (hq : q ∈ logicalRect m d)
    (h : scanTransform m d p = scanTransform m d q) : p = q := by
  obtain ⟨x, y⟩ := p
  obtain ⟨u, v⟩ := q
  simp only [logicalRect, logicalWidth, logicalHeight, Set.mem_setOf_eq] at hp hq
  simp only [scanTransform] at h
  cases d <;> simp [swapsAxes, reversesX, reversesY] at hp hq h ⊢ <;> omega

theorem scanInverse_mem (m : Mode) (d : ScanDirection) (q : Nat × Nat)
    (hq : q ∈ physicalRect m) : scanInverse m d q ∈ logicalRect m d := by
  obtain ⟨u, v⟩ := q
  simp only [physicalRect, Set.mem_setOf_eq] at hq
  simp only [logicalRect, logicalWidth, logicalHeight, Set.mem_setOf_eq, scanInverse]
  cases d <;> simp [swapsAxes, reversesX, reversesY] <;> omega

theorem scanTransform_scanInverse (m : Mode) (d : ScanDirection) (q : Nat × Nat)
    (hq : q ∈ physicalRect m) : scanTransform m d (scanInverse m d q) = q := by
  obtain ⟨u, v⟩ := q
  simp only [physicalRect, Set.mem_setOf_eq] at hq
  simp only [scanTransform, scanInverse]
  cases d <;> simp [swapsAxes, reversesX, reversesY] <;> omega

/-- C4: for each of the 8 scan directions the logical-to-physical coordinate
map is a bijection from the logical coordinate rectangle onto the physical
coordinate rectangle of the active profile. -/
theorem scanTransform_bijOn (m : Mode) (d : ScanDirection) :
    Set.BijOn (scanTransform m d) (logicalRect m d) (physicalRect m) := by
  refine ⟨fun p hp => scanTransform_mapsTo m d p hp,
    fun p hp q hq h => scanTransform_injOn m d p q hp hq h, fun q hq => ?_⟩
  exact ⟨scanInverse m d q, scanInverse_mem m d q hq, scanTransform_scanInverse m d q hq⟩

end Wrappers.Driver

/-! ## Bit-level lemmas for the packing of one byte -/

namespace Wrappers.Driver

theorem shiftRight_and_one (b j : Nat) : (b >>> j) &&& 1 = (b.testBit j).toNat := by
  rw [Nat.and_one_is_mod, Nat.testBit, Nat.one_and_eq_mod_two]
  rcases Nat.mod_two_eq_zero_or_one (b >>> j) with h | h <;> simp [h]

theorem testBit_255 (j : Nat) : Nat.testBit 0xFF j = decide (j < 8) := by
  rw [show (0xFF : Nat) = 2 ^ 8 - 1 by rfl, Nat.testBit_two_pow_sub_one]

theorem testBit_15 (j : Nat) : Nat.testBit 0x0F j = decide (j < 4) := by
  rw [show (0x0F : Nat) = 2 ^ 4 - 1 by rfl, Nat.testBit_two_pow_sub_one]

theorem testBit_240 (j : Nat) :
    Nat.testBit 0xF0 j = (decide (4 ≤ j) && decide (j < 8)) := by
  rw [show (0xF0 : Nat) = (2 ^ 4 - 1) <<< 4 by rfl, Nat.testBit_shiftLeft,
    Nat.testBit_two_pow_sub_one]
  by_cases h : 4 ≤ j <;> by_cases h8 : j < 8 <;> simp [h, h8] <;> omega

theorem testBit_one_eq (n : Nat) : Nat.testBit 1 n = decide (n = 0) := by
  have h := @Nat.testBit_two_pow 0 n
  simp only [pow_zero] at h
  rw [h]
  by_cases hn : n = 0
  · simp [hn]
  · have : ¬ 0 = n := fun e => hn e.symm
    simp [hn, this]

/-- Bits of a byte after one bit is rewritten. -/
theorem testBit_packBit (b c k j : Nat) (hk : k < 8) :
    Nat.testBit ((b &&& (0xFF ^^^ (1 <<< k))) ||| ((c &&& 1) <<< k)) j =
      if j = k then c.testBit 0 else (decide (j < 8) && b.testBit j) := by
  simp only [Nat.testBit_or, Nat.testBit_and, Nat.testBit_xor, testBit_255,
    Nat.testBit_shiftLeft, testBit_one_eq]
  by_cases hjk : j = k
  · subst hjk
    simp [hk]
  · by_cases h8 : j < 8
    · by_cases hge : k ≤ j
      · have : j - k ≠ 0 := by omega
        simp [hjk, h8, hge, this]
      · simp [hjk, h8, hge]
    · have hge : k ≤ j := by omega
      have : j - k ≠ 0 := by omega
      simp [hjk, h8, hge, this]

/-- Bits of a byte after its high nibble is rewritten. -/
theorem testBit_packHigh (b c j : Nat) :
    Nat.testBit ((b &&& 0x0F) ||| ((c &&& 0x0F) <<< 4)) j =
      if j < 4 then b.testBit j else (decide (j < 8) && c.testBit (j - 4)) := by
  simp only [Nat.testBit_or, Nat.testBit_and, Nat.testBit_shiftLeft, testBit_15]
  by_cases h4 : j < 4
  · have : ¬ 4 ≤ j := by omega
    simp [h4, this]
  · have hge : 4 ≤ j := by omega
    by_cases h8 : j < 8
    · have : j - 4 < 4 := by omega
      simp [h4, hge, h8, this]
    · have : ¬ j - 4 < 4 := by omega
      simp [h4, hge, h8, this]

/-- Bits of a byte after its low nibble is rewritten. -/
theorem testBit_packLow (b c j : Nat) :
    Nat.testBit ((b &&& 0xF0) ||| (c &&& 0x0F)) j =
      if j < 4 then c.testBit j else (decide (j < 8) && b.testBit j) := by
  simp only [Nat.testBit_or, Nat.testBit_and, testBit_15, testBit_240]
  by_cases h4 : j < 4
  · have : ¬ 4 ≤ j := by omega
    simp [h4, this]
  · have hge : 4 ≤ j := by omega
    by_cases h8 : j < 8 <;> simp [h4, hge, h8]

/-- A number is below 256 when it has no bit from position 8 on. -/
theorem lt_256_of_testBit (b : Nat) (h : ∀ j, 8 ≤ j → b.testBit j = false) : b < 256 := by
  by_contra hb
  have hb2 : b ≥ 2 ^ 8 := by omega
  obtain ⟨j, hj, hbit⟩ := Nat.ge_two_pow_implies_high_bit_true hb2
  rw [h j hj] at hbit
  exact Bool.noConfusion hbit

end Wrappers.Driver

/-! ## Packing lemmas: one pixel in one byte -/

namespace Wrappers.Driver

theorem slot_lt_eight (m : Mode) (p : Nat × Nat) : slot m p < 8 := by
  cases m <;> simp only [slot] <;> omega

/-- Reading back the slot just packed gives the colour masked to the bit
depth, whatever the byte held before. -/
theorem unpackPixel_packPixel_same (m : Mode) (p : Nat × Nat) (b c : Nat) :
    unpackPixel m p (packPixel m p b c) = maskColor m c := by
  have bit : ∀ k, k < 8 →
      (((b &&& (0xFF ^^^ (1 <<< k))) ||| ((c &&& 1) <<< k)) >>> k) &&& 1 = c % 2 := by
    intro k hk
    rw [shiftRight_and_one, testBit_packBit b c k k hk, if_pos rfl, Nat.testBit_zero]
    rcases Nat.mod_two_eq_zero_or_one c with h | h <;> simp [h]
  cases m
  · simpa [unpackPixel, packPixel, maskColor, bitsPerPixel, pixelsPerByte] using
      bit (p.2 % 8) (Nat.mod_lt _ (by decide))
  · simpa [unpackPixel, packPixel, maskColor, bitsPerPixel, pixelsPerByte] using
      bit (p.2 % 8) (Nat.mod_lt _ (by decide))
  · have hmask : maskColor Mode.SSD1322 c = c % 2 ^ 4 := rfl
    rw [hmask]
    simp only [unpackPixel, packPixel]
    by_cases hx : p.1 % 2 = 0
    · rw [if_pos hx, if_pos hx]
      apply Nat.eq_of_testBit_eq
      intro j
      rw [Nat.testBit_and, Nat.testBit_shiftRight, testBit_packHigh, testBit_15,
        Nat.testBit_mod_two_pow]
      by_cases h4 : j < 4
      · have h1 : ¬ 4 + j < 4 := by omega
        have h2 : 4 + j < 8 := by omega
        have h3 : 4 + j - 4 = j := by omega
        simp [h4, h1, h2, h3]
      · simp [h4]
    · rw [if_neg hx, if_neg hx]
      apply Nat.eq_of_testBit_eq
      intro j
      rw [Nat.testBit_and, testBit_packLow, testBit_15, Nat.testBit_mod_two_pow]
      by_cases h4 : j < 4 <;> simp [h4]

/-- Packing one slot leaves every other slot of the byte as it was. -/
theorem unpackPixel_packPixel_other (m : Mode) (p q : Nat × Nat) (b c : Nat)
    (h : slot m p ≠ slot m q) :
    unpackPixel m q (packPixel m p b c) = unpackPixel m q b := by
  have bit : ∀ k j, k < 8 → j < 8 → k ≠ j →
      (((b &&& (0xFF ^^^ (1 <<< k))) ||| ((c &&& 1) <<< k)) >>> j) &&& 1 =
        (b >>> j) &&& 1 := by
    intro k j hk hj hkj
    rw [shiftRight_and_one, shiftRight_and_one, testBit_packBit b c k j hk,
      if_neg (fun e => hkj e.symm)]
    simp [hj]
  cases m
  · exact bit (p.2 % 8) (q.2 % 8) (Nat.mod_lt _ (by decide)) (Nat.mod_lt _ (by decide)) h
  · exact bit (p.2 % 8) (q.2 % 8) (Nat.mod_lt _ (by decide)) (Nat.mod_lt _ (by decide)) h
  · simp only [slot] at h
    simp only [unpackPixel, packPixel]
    by_cases hx : p.1 % 2 = 0
    · have hq : ¬ q.1 % 2 = 0 := fun e => h (hx.trans e.symm)
      simp only [if_pos hx, if_neg hq]
      apply Nat.eq_of_testBit_eq
      intro j
      rw [Nat.testBit_and, testBit_packHigh, Nat.testBit_and, testBit_15]
      by_cases h4 : j < 4 <;> simp [h4]
    · have hq : q.1 % 2 = 0 := by omega
      simp only [if_neg hx, if_pos hq]
      apply Nat.eq_of_testBit_eq
      intro j
      rw [Nat.testBit_and, Nat.testBit_shiftRight, testBit_packLow, Nat.testBit_and,
        Nat.testBit_shiftRight, testBit_15]
      by_cases h4 : j < 4
      · have h1 : ¬ 4 + j < 4 := by omega
        have h2 : 4 + j < 8 := by omega
        simp [h4, h1, h2]
      · simp [h4]

/-- A packed byte is a byte. -/
theorem packPixel_lt (m : Mode) (p : Nat × Nat) (b c : Nat) : packPixel m p b c < 256 := by
  have bit : ∀ k, k < 8 → ((b &&& (0xFF ^^^ (1 <<< k))) ||| ((c &&& 1) <<< k)) < 256 := by
    intro k hk
    apply lt_256_of_testBit
    intro j hj
    have hjk : ¬ j = k := by omega
    have h8 : ¬ j < 8 := by omega
    rw [testBit_packBit b c k j hk, if_neg hjk]
    simp [h8]
  cases m
  · exact bit (p.2 % 8) (Nat.mod_lt _ (by decide))
  · exact bit (p.2 % 8) (Nat.mod_lt _ (by decide))
  · simp only [packPixel]
    by_cases hx : p.1 % 2 = 0
    · rw [if_pos hx]
      apply lt_256_of_testBit
      intro j hj
      have h4 : ¬ j < 4 := by omega
      have h8 : ¬ j < 8 := by omega
      rw [testBit_packHigh, if_neg h4]
      simp [h8]
    · rw [if_neg hx]
      apply lt_256_of_testBit
      intro j hj
      have h4 : ¬ j < 4 := by omega
      have h8 : ¬ j < 8 := by omega
      rw [testBit_packLow, if_neg h4]
      simp [h8]

/-! ## Addressing lemmas: pixels, bytes and slots -/

/-- The byte of an in-bounds pixel lies inside the frame of the profile. -/
theorem byteIndex_lt_frameBytes (m : Mode) (p : Nat × Nat) (hp : p ∈ physicalRect m) :
    byteIndex m p < frameBytes m := by
  obtain ⟨x, y⟩ := p
  simp only [physicalRect, Set.mem_setOf_eq] at hp
  cases m <;>
    simp only [byteIndex, frameBytes, Width, Height, pixelsPerByte, SH1106.Width,
      SH1106.Height, SH1106.XMax, SH1106.YMax, SH1106.XOffset, SSD1305.Width,
      SSD1305.Height, SSD1305.XMax, SSD1305.YMax, SSD1322.Width, SSD1322.Height,
      SSD1322.XMax, SSD1322.YMax] at hp ⊢ <;>
    omega

/-- The byte of an in-bounds pixel lies inside the buffer. -/
theorem byteIndex_lt_bufferSize (m : Mode) (p : Nat × Nat) (hp : p ∈ physicalRect m) :
    byteIndex m p < _bufferSize := by
  have h1 := byteIndex_lt_frameBytes m p hp
  have h2 : frameBytes m ≤ _bufferSize := by cases m <;> decide
  omega

/-- An in-bounds pixel is determined by its byte and its slot. -/
theorem pixel_eq_of_byteIndex_slot (m : Mode) (p q : Nat × Nat)
    (hp : p ∈ physicalRect m) (hq : q ∈ physicalRect m)
    (hb : byteIndex m p = byteIndex m q) (hs : slot m p = slot m q) : p = q := by
  obtain ⟨x, y⟩ := p
  obtain ⟨u, v⟩ := q
  simp only [physicalRect, Set.mem_setOf_eq] at hp hq
  have key : x = u ∧ y = v := by
    cases m <;>
      simp only [byteIndex, slot, Width, Height, SH1106.Width,
        SH1106.Height, SH1106.XMax, SH1106.YMax, SH1106.XOffset, SSD1305.Width,
        SSD1305.Height, SSD1305.XMax, SSD1305.YMax, SSD1322.Width, SSD1322.Height,
        SSD1322.XMax, SSD1322.YMax] at hp hq hb hs <;>
      omega
  rw [key.1, key.2]

end Wrappers.Driver

/-! ## The buffer as a list of bytes -/

namespace Wrappers.Driver

theorem getD_set_self (l : List Nat) (i v : Nat) (h : i < l.length) :
    (l.set i v).getD i 0 = v := by
  rw [List.getD_eq_getElem?_getD, List.getElem?_set_self h]
  rfl

theorem getD_set_ne (l : List Nat) (i j v : Nat) (h : i ≠ j) :
    (l.set i v).getD j 0 = l.getD j 0 := by
  rw [List.getD_eq_getElem?_getD, List.getD_eq_getElem?_getD, List.getElem?_set_ne h]

theorem getD_replicate_lt (n i v : Nat) (h : i < n) : (List.replicate n v).getD i 0 = v := by
  rw [List.getD_eq_getElem?_getD, List.getElem?_replicate_of_lt h]
  rfl

theorem getD_lt_of_forall_mem (l : List Nat) (i : Nat) (h : ∀ b ∈ l, b < 256) :
    l.getD i 0 < 256 := by
  by_cases hi : i < l.length
  · rw [List.getD_eq_getElem l 0 hi]
    exact h _ (List.getElem_mem hi)
  · rw [List.getD_eq_default l 0 (Nat.le_of_not_lt hi)]
    decide

/-! ## Well-formedness is kept by every operation -/

theorem wellFormed_SetScanDirection (d : Driver) (s : ScanDirection)
    (hd : d._buffer.length = _bufferSize ∧ ∀ b ∈ d._buffer, b < 256) :
    WellFormed (SetScanDirection d s) :=
  ⟨hd.1, hd.2, rfl, rfl⟩

theorem wellFormed_Construct (m : Mode) (s : ScanDirection) : WellFormed (Construct m s) := by
  refine ⟨List.length_replicate _ _, ?_, rfl, rfl⟩
  intro b hb
  have h0 : b = 0 := List.eq_of_mem_replicate hb
  omega

theorem wellFormed_SetColor (d : Driver) (x y c : Nat) (hd : WellFormed d) :
    WellFormed (SetColor d x y c) := by
  obtain ⟨hlen, hbytes, hw, hh⟩ := hd
  refine ⟨?_, ?_, hw, hh⟩
  · show (d._buffer.set _ _).length = _bufferSize
    rw [List.length_set]
    exact hlen
  · intro b hb
    rcases List.mem_or_eq_of_mem_set hb with h | h
    · exact hbytes b h
    · rw [h]
      exact packPixel_lt _ _ _ _

theorem broadcastByte_lt (m : Mode) (c : Nat) : broadcastByte m c < 256 := by
  cases m
  · simp only [broadcastByte]
    split <;> decide
  · simp only [broadcastByte]
    split <;> decide
  · simp only [broadcastByte]
    apply lt_256_of_testBit
    intro j hj
    have h4 : ¬ j < 4 := by omega
    have h44 : ¬ j - 4 < 4 := by omega
    simp [Nat.testBit_or, Nat.testBit_and, Nat.testBit_shiftLeft, testBit_15, h4, h44]

theorem wellFormed_Clear (d : Driver) (c : Nat) (hd : WellFormed d) :
    WellFormed (Clear d c) := by
  obtain ⟨_, _, hw, hh⟩ := hd
  refine ⟨List.length_replicate _ _, ?_, hw, hh⟩
  intro b hb
  rw [List.eq_of_mem_replicate hb]
  exact broadcastByte_lt _ _

/-! ## `SetColor`: round trip and frame -/

theorem SetColor_mode (d : Driver) (x y c : Nat) : (SetColor d x y c)._mode = d._mode := rfl

theorem SetColor_state (d : Driver) (x y c : Nat) : (SetColor d x y c)._state = d._state := rfl

theorem SetColor_buffer (d : Driver) (x y c : Nat) :
    (SetColor d x y c)._buffer =
      d._buffer.set (byteIndex d._mode (scanTransform d._mode d._state.scanDir (x, y)))
        (packPixel d._mode (scanTransform d._mode d._state.scanDir (x, y))
          (d._buffer.getD (byteIndex d._mode (scanTransform d._mode d._state.scanDir (x, y))) 0)
          c) := rfl

/-- An in-bounds logical pixel of a well-formed driver lands in the panel
grid. -/
theorem scanTransform_mem_of_inBounds (d : Driver) (x y : Nat) (hd : WellFormed d)
    (hx : x < GetWidth d) (hy : y < GetHeight d) :
    scanTransform d._mode d._state.scanDir (x, y) ∈ physicalRect d._mode := by
  apply scanTransform_mapsTo
  obtain ⟨_, _, hw, hh⟩ := hd
  simp only [GetWidth, GetHeight] at hx hy
  exact ⟨by rw [← hw]; exact hx, by rw [← hh]; exact hy⟩

theorem readPixel_SetColor_same (d : Driver) (x y c : Nat) (hd : WellFormed d)
    (hx : x < GetWidth d) (hy : y < GetHeight d) :
    readPixel (SetColor d x y c) x y = maskColor d._mode c := by
  have hp := scanTransform_mem_of_inBounds d x y hd hx hy
  have hi := byteIndex_lt_bufferSize _ _ hp
  rw [← hd.1] at hi
  simp only [readPixel, bufferByte, SetColor_mode, SetColor_state, SetColor_buffer]
  rw [getD_set_self _ _ _ hi]
  exact unpackPixel_packPixel_same _ _ _ _

theorem readPixel_SetColor_other (d : Driver) (x y c u v : Nat) (hd : WellFormed d)
    (hx : x < GetWidth d) (hy : y < GetHeight d)
    (hu : u < GetWidth d) (hv : v < GetHeight d) (hne : (x, y) ≠ (u, v)) :
    readPixel (SetColor d x y c) u v = readPixel d u v := by
  have hp := scanTransform_mem_of_inBounds d x y hd hx hy
  have hq := scanTransform_mem_of_inBounds d u v hd hu hv
  have hi := byteIndex_lt_bufferSize _ _ hp
  rw [← hd.1] at hi
  have hpq : scanTransform d._mode d._state.scanDir (x, y) ≠
      scanTransform d._mode d._state.scanDir (u, v) := by
    intro e
    apply hne
    obtain ⟨_, _, hw, hh⟩ := hd
    simp only [GetWidth, GetHeight] at hx hy hu hv
    exact scanTransform_injOn d._mode d._state.scanDir (x, y) (u, v)
      ⟨by rw [← hw]; exact hx, by rw [← hh]; exact hy⟩
      ⟨by rw [← hw]; exact hu, by rw [← hh]; exact hv⟩ e
  simp only [readPixel, bufferByte, SetColor_mode, SetColor_state, SetColor_buffer]
  by_cases hb : byteIndex d._mode (scanTransform d._mode d._state.scanDir (x, y)) =
      byteIndex d._mode (scanTransform d._mode d._state.scanDir (u, v))
  · have hs : slot d._mode (scanTransform d._mode d._state.scanDir (x, y)) ≠
        slot d._mode (scanTransform d._mode d._state.scanDir (u, v)) :=
      fun e => hpq (pixel_eq_of_byteIndex_slot _ _ _ hp hq hb e)
    rw [← hb, getD_set_self _ _ _ hi]
    exact unpackPixel_packPixel_other _ _ _ _ _ hs
  · rw [getD_set_ne _ _ _ _ hb]

/-- `SetColor` writes one byte: every other byte of the buffer is kept. -/
theorem bufferByte_SetColor_ne (d : Driver) (x y c i : Nat)
    (hi : byteIndex d._mode (scanTransform d._mode d._state.scanDir (x, y)) ≠ i) :
    bufferByte (SetColor d x y c) i = bufferByte d i :=
  getD_set_ne _ _ _ _ hi

theorem bufferByte_Construct (m : Mode) (s : ScanDirection) (i : Nat) :
    bufferByte (Construct m s) i = 0 := by
  show (List.replicate _bufferSize 0).getD i 0 = 0
  by_cases hi : i < _bufferSize
  · exact getD_replicate_lt _ _ _ hi
  · rw [List.getD_eq_default _ 0 (by rw [List.length_replicate]; omega)]

end Wrappers.Driver

/-! ## `SetColor` and `Clear`: helper lemmas on single bytes -/

namespace Wrappers.Driver

/-- The byte `SetColor` writes: the old byte with the pixel packed in. -/
theorem bufferByte_SetColor_self (d : Driver) (x y c : Nat)
    (hi : byteIndex d._mode (scanTransform d._mode d._state.scanDir (x, y)) <
      d._buffer.length) :
    bufferByte (SetColor d x y c)
        (byteIndex d._mode (scanTransform d._mode d._state.scanDir (x, y))) =
      packPixel d._mode (scanTransform d._mode d._state.scanDir (x, y))
        (bufferByte d (byteIndex d._mode (scanTransform d._mode d._state.scanDir (x, y))))
        c :=
  getD_set_self _ _ _ hi

theorem bufferByte_Clear (d : Driver) (c i : Nat) (hi : i < _bufferSize) :
    bufferByte (Clear d c) i = broadcastByte d._mode c :=
  getD_replicate_lt _ _ _ hi

/-- Every slot of the broadcast byte holds the colour masked to the bit
depth. -/
theorem unpackPixel_broadcastByte (m : Mode) (p : Nat × Nat) (c : Nat) :
    unpackPixel m p (broadcastByte m c) = maskColor m c := by
  have bit : ∀ k, k < 8 → ((if c &&& 1 = 1 then 0xFF else 0x00) >>> k) &&& 1 = c % 2 := by
    intro k hk
    have hc : c &&& 1 = c % 2 := Nat.and_one_is_mod c
    rw [hc]
    rcases Nat.mod_two_eq_zero_or_one c with h | h
    · simp [h]
    · rw [h, if_pos rfl, shiftRight_and_one, testBit_255]
      simp [hk]
  cases m
  · simpa [unpackPixel, broadcastByte, maskColor, bitsPerPixel, pixelsPerByte] using
      bit (p.2 % 8) (Nat.mod_lt _ (by decide))
  · simpa [unpackPixel, broadcastByte, maskColor, bitsPerPixel, pixelsPerByte] using
      bit (p.2 % 8) (Nat.mod_lt _ (by decide))
  · have hmask : maskColor Mode.SSD1322 c = c % 2 ^ 4 := rfl
    rw [hmask]
    simp only [unpackPixel, broadcastByte]
    split
    · apply Nat.eq_of_testBit_eq
      intro j
      simp only [Nat.testBit_and, Nat.testBit_shiftRight, Nat.testBit_or,
        Nat.testBit_shiftLeft, testBit_15, Nat.testBit_mod_two_pow]
      by_cases h4 : j < 4
      · have h1 : ¬ 4 + j < 4 := by omega
        have h3 : 4 + j - 4 = j := by omega
        simp [h4, h1, h3]
      · simp [h4]
    · apply Nat.eq_of_testBit_eq
      intro j
      simp only [Nat.testBit_and, Nat.testBit_or, Nat.testBit_shiftLeft, testBit_15,
        Nat.testBit_mod_two_pow]
      by_cases h4 : j < 4
      · have h1 : ¬ 4 ≤ j := by omega
        simp [h4, h1]
      · simp [h4]

theorem readPixel_Clear (d : Driver) (x y c : Nat) (hd : WellFormed d)
    (hx : x < GetWidth d) (hy : y < GetHeight d) :
    readPixel (Clear d c) x y = maskColor d._mode c := by
  have hp := scanTransform_mem_of_inBounds d x y hd hx hy
  have hi := byteIndex_lt_bufferSize _ _ hp
  show unpackPixel d._mode (scanTransform d._mode d._state.scanDir (x, y))
    (bufferByte (Clear d c) (byteIndex d._mode (scanTransform d._mode d._state.scanDir (x, y)))) =
      maskColor d._mode c
  rw [bufferByte_Clear d c _ hi]
  exact unpackPixel_broadcastByte _ _ _

end Wrappers.Driver

/-! ## Theorems: `SetColor`, `Clear` -/

namespace Wrappers.Driver

/-- C2: packing round trip. For every mode, every scan direction, every
in-bounds `(x, y)` and every colour `c`, after `SetColor(x, y, c)` the value
read back from the packed location of `(x, y)` is `c` masked to the bit depth
of the profile: `c mod 2` on the 1-bit chips, `c mod 16` on the 4-bit chip. -/
theorem setColor_roundtrip (d : Driver) (x y c : Nat) (hd : WellFormed d)
    (hx : x < GetWidth d) (hy : y < GetHeight d) :
    readPixel (SetColor d x y c) x y = maskColor d._mode c ∧
    (d._mode = Mode.SH1106 ∨ d._mode = Mode.SSD1305 →
      readPixel (SetColor d x y c) x y = c % 2) ∧
    (d._mode = Mode.SSD1322 → readPixel (SetColor d x y c) x y = c % 16) := by
  have h := readPixel_SetColor_same d x y c hd hx hy
  refine ⟨h, ?_, ?_⟩
  · intro hm
    rw [h]
    rcases hm with hm | hm <;> rw [hm] <;> rfl
  · intro hm
    rw [h, hm]
    rfl

/-- Witness of C2: chip A mounted with swapped axes, pixel (5, 100), colour 3. -/
theorem setColor_roundtrip_witness :
    WellFormed (Construct Mode.SH1106 ScanDirection.UpDown_RightLeft) ∧
    5 < GetWidth (Construct Mode.SH1106 ScanDirection.UpDown_RightLeft) ∧
    100 < GetHeight (Construct Mode.SH1106 ScanDirection.UpDown_RightLeft) ∧
    readPixel (SetColor (Construct Mode.SH1106 ScanDirection.UpDown_RightLeft) 5 100 3)
      5 100 = 1 :=
  ⟨wellFormed_Construct _ _, by decide, by decide,
    (setColor_roundtrip (Construct Mode.SH1106 ScanDirection.UpDown_RightLeft) 5 100 3
      (wellFormed_Construct _ _) (by decide) (by decide)).1⟩

/-- C3: `SetColor` changes only the addressed pixel: for every mode and every
two distinct in-bounds pixels, `SetColor` at the first leaves the packed value
of the second unchanged. On chip C, from a zeroed buffer, `SetColor(0,0,0xF)`
then `SetColor(1,0,0x3)` leaves byte 0 equal to `0xF3`. On chip A in default
orientation, from a zeroed buffer, `SetColor(0,0,1)` then `SetColor(127,63,1)`
sets exactly bit 0 of byte 0 and bit 7 of the last byte of the last page, every
other bit of the buffer being zero. -/
theorem setColor_frame :
    (∀ (d : Driver) (x y c u v : Nat), WellFormed d →
      x < GetWidth d → y < GetHeight d → u < GetWidth d → v < GetHeight d →
      (x, y) ≠ (u, v) → readPixel (SetColor d x y c) u v = readPixel d u v) ∧
    bufferByte
      (SetColor (SetColor (Construct Mode.SSD1322 ScanDirection.Default) 0 0 0xF) 1 0 0x3)
      0 = 0xF3 ∧
    (∀ i : Nat, i < _bufferSize →
      bufferByte
        (SetColor (SetColor (Construct Mode.SH1106 ScanDirection.Default) 0 0 1) 127 63 1)
        i =
      if i = 0 then 1 <<< 0
      else if i = (SH1106.Height / 8 - 1) * SH1106.Width + (SH1106.Width - 1) then 1 <<< 7
      else 0) := by
  refine ⟨fun d x y c u v hd hx hy hu hv hne =>
    readPixel_SetColor_other d x y c u v hd hx hy hu hv hne, ?_, ?_⟩
  · have hw0 := wellFormed_Construct Mode.SSD1322 ScanDirection.Default
    have hw1 := wellFormed_SetColor _ 0 0 0xF hw0
    have h1 := bufferByte_SetColor_self (Construct Mode.SSD1322 ScanDirection.Default)
      0 0 0xF (by rw [hw0.1]; decide)
    have h2 := bufferByte_SetColor_self
      (SetColor (Construct Mode.SSD1322 ScanDirection.Default) 0 0 0xF) 1 0 0x3
      (by rw [hw1.1]; decide)
    rw [bufferByte_Construct] at h1
    have e1 : byteIndex (Construct Mode.SSD1322 ScanDirection.Default)._mode
        (scanTransform (Construct Mode.SSD1322 ScanDirection.Default)._mode
          (Construct Mode.SSD1322 ScanDirection.Default)._state.scanDir (0, 0)) = 0 := by
      decide
    have e2 : byteIndex
        (SetColor (Construct Mode.SSD1322 ScanDirection.Default) 0 0 0xF)._mode
        (scanTransform (SetColor (Construct Mode.SSD1322 ScanDirection.Default) 0 0 0xF)._mode
          (SetColor (Construct Mode.SSD1322 ScanDirection.Default) 0 0 0xF)._state.scanDir
          (1, 0)) = 0 := by
      decide
    rw [e1] at h1
    rw [e2, h1] at h2
    rw [h2]
    decide
  · intro i hi
    have hw0 := wellFormed_Construct Mode.SH1106 ScanDirection.Default
    have hw1 := wellFormed_SetColor _ 0 0 1 hw0
    have e1 : byteIndex (Construct Mode.SH1106 ScanDirection.Default)._mode
        (scanTransform (Construct Mode.SH1106 ScanDirection.Default)._mode
          (Construct Mode.SH1106 ScanDirection.Default)._state.scanDir (0, 0)) = 0 := by
      decide
    have e2 : byteIndex
        (SetColor (Construct Mode.SH1106 ScanDirection.Default) 0 0 1)._mode
        (scanTransform (SetColor (Construct Mode.SH1106 ScanDirection.Default) 0 0 1)._mode
          (SetColor (Construct Mode.SH1106 ScanDirection.Default) 0 0 1)._state.scanDir
          (127, 63)) = 1023 := by
      decide
    have h1 := bufferByte_SetColor_self (Construct Mode.SH1106 ScanDirection.Default)
      0 0 1 (by rw [hw0.1]; decide)
    rw [bufferByte_Construct, e1] at h1
    have h2 := bufferByte_SetColor_self
      (SetColor (Construct Mode.SH1106 ScanDirection.Default) 0 0 1) 127 63 1
      (by rw [hw1.1]; decide)
    have h3 : bufferByte (SetColor (Construct Mode.SH1106 ScanDirection.Default) 0 0 1) 1023 =
        0 := by
      rw [bufferByte_SetColor_ne _ 0 0 1 1023 (by rw [e1]; decide), bufferByte_Construct]
    rw [e2, h3] at h2
    have hlast : (SH1106.Height / 8 - 1) * SH1106.Width + (SH1106.Width - 1) = 1023 := by
      decide
    rw [hlast]
    by_cases hi0 : i = 0
    · rw [if_pos hi0, hi0, bufferByte_SetColor_ne _ 127 63 1 0 (by rw [e2]; decide), h1]
      decide
    · rw [if_neg hi0]
      by_cases hi1 : i = 1023
      · rw [if_pos hi1, hi1, h2]
        decide
      · rw [if_neg hi1,
          bufferByte_SetColor_ne _ 127 63 1 i (by rw [e2]; exact fun e => hi1 e.symm),
          bufferByte_SetColor_ne _ 0 0 1 i (by rw [e1]; exact fun e => hi0 e.symm),
          bufferByte_Construct]

/-- Witness of C3: chip C mounted upside down; writing pixel (3, 2) leaves the
neighbour (2, 2), which shares its byte, as it was. -/
theorem setColor_frame_witness :
    readPixel (SetColor (Construct Mode.SSD1322 ScanDirection.RightLeft_DownUp) 3 2 9) 2 2 =
      readPixel (Construct Mode.SSD1322 ScanDirection.RightLeft_DownUp) 2 2 :=
  setColor_frame.1 (Construct Mode.SSD1322 ScanDirection.RightLeft_DownUp) 3 2 9 2 2
    (wellFormed_Construct _ _) (by decide) (by decide) (by decide) (by decide) (by decide)

/-- C8: `Clear` fills the whole native buffer with one broadcast byte. For
every mode, after `Clear(0)` every byte of the buffer is `0x00`; on a 1-bit
profile, after `Clear(1)` every byte is `0xFF`; so every in-bounds pixel reads
back as the cleared colour. -/
theorem clear_fills_buffer :
    (∀ (d : Driver) (c : Nat),
      (Clear d c)._buffer = List.replicate _bufferSize (broadcastByte d._mode c)) ∧
    (∀ (d : Driver) (i : Nat), i < _bufferSize →
      bufferByte (Clear d clearDefaultColor) i = 0x00 ∧ bufferByte (Clear d 0) i = 0x00) ∧
    (∀ (d : Driver) (i : Nat), d._mode = Mode.SH1106 ∨ d._mode = Mode.SSD1305 →
      i < _bufferSize → bufferByte (Clear d 1) i = 0xFF) ∧
    (∀ (d : Driver) (x y : Nat), WellFormed d → x < GetWidth d → y < GetHeight d →
      readPixel (Clear d 0) x y = 0) ∧
    (∀ (d : Driver) (x y : Nat), WellFormed d →
      d._mode = Mode.SH1106 ∨ d._mode = Mode.SSD1305 →
      x < GetWidth d → y < GetHeight d → readPixel (Clear d 1) x y = 1) := by
  refine ⟨fun d c => rfl, ?_, ?_, ?_, ?_⟩
  · intro d i hi
    have h : bufferByte (Clear d 0) i = 0x00 := by
      rw [bufferByte_Clear d 0 i hi]
      cases d._mode <;> rfl
    exact ⟨h, h⟩
  · intro d i hm hi
    rw [bufferByte_Clear d 1 i hi]
    rcases hm with hm | hm <;> rw [hm] <;> rfl
  · intro d x y hd hx hy
    rw [readPixel_Clear d x y 0 hd hx hy]
    cases d._mode <;> rfl
  · intro d x y hd hm hx hy
    rw [readPixel_Clear d x y 1 hd hx hy]
    rcases hm with hm | hm <;> rw [hm] <;> rfl

/-- Witness of C8: after `Clear(1)` on chip B the last in-bounds pixel reads 1. -/
theorem clear_fills_buffer_witness :
    readPixel (Clear (Construct Mode.SSD1305 ScanDirection.Default) 1) 127 31 = 1 :=
  clear_fills_buffer.2.2.2.2 (Construct Mode.SSD1305 ScanDirection.Default) 127 31
    (wellFormed_Construct _ _) (Or.inr rfl) (by decide) (by decide)

end Wrappers.Driver

/-! ## `CopyGLBuffer`: a pass of `SetColor` over the whole frame -/

namespace Wrappers.Driver

/-- A pass of `SetColor` keeps the driver well formed and leaves the mode and
`_state` alone. -/
theorem foldl_SetColor_invariant (fx fy fc : Nat → Nat) (is : List Nat) (d : Driver)
    (hd : WellFormed d) :
    WellFormed (is.foldl (fun acc i => SetColor acc (fx i) (fy i) (fc i)) d) ∧
    (is.foldl (fun acc i => SetColor acc (fx i) (fy i) (fc i)) d)._mode = d._mode ∧
    (is.foldl (fun acc i => SetColor acc (fx i) (fy i) (fc i)) d)._state = d._state := by
  induction is generalizing d with
  | nil => exact ⟨hd, rfl, rfl⟩
  | cons i rest ih =>
    rw [List.foldl_cons]
    obtain ⟨h1, h2, h3⟩ := ih (SetColor d (fx i) (fy i) (fc i)) (wellFormed_SetColor _ _ _ _ hd)
    exact ⟨h1, h2, h3⟩

/-- A pass of `SetColor` that never addresses a pixel leaves it as it was. -/
theorem readPixel_foldl_SetColor_other (fx fy fc : Nat → Nat) (u v : Nat) (is : List Nat)
    (d : Driver) (hd : WellFormed d) (hu : u < GetWidth d) (hv : v < GetHeight d)
    (hin : ∀ i ∈ is, fx i < GetWidth d ∧ fy i < GetHeight d)
    (hmiss : ∀ i ∈ is, (fx i, fy i) ≠ (u, v)) :
    readPixel (is.foldl (fun acc i => SetColor acc (fx i) (fy i) (fc i)) d) u v =
      readPixel d u v := by
  induction is generalizing d with
  | nil => rfl
  | cons i rest ih =>
    rw [List.foldl_cons]
    have hi := hin i (List.mem_cons_self _ _)
    rw [ih (SetColor d (fx i) (fy i) (fc i)) (wellFormed_SetColor _ _ _ _ hd) hu hv
      (fun j hj => hin j (List.mem_cons_of_mem _ hj))
      (fun j hj => hmiss j (List.mem_cons_of_mem _ hj))]
    exact readPixel_SetColor_other d (fx i) (fy i) (fc i) u v hd hi.1 hi.2 hu hv
      (hmiss i (List.mem_cons_self _ _))

/-- After a pass of `SetColor` with one colour, every pixel the pass addressed
reads that colour, masked. -/
theorem readPixel_foldl_SetColor_hit (fx fy fc : Nat → Nat) (c u v : Nat) (is : List Nat)
    (d : Driver) (hd : WellFormed d) (hu : u < GetWidth d) (hv : v < GetHeight d)
    (hin : ∀ i ∈ is, fx i < GetWidth d ∧ fy i < GetHeight d)
    (hc : ∀ i ∈ is, fc i = c)
    (hhit : ∃ i ∈ is, (fx i, fy i) = (u, v)) :
    readPixel (is.foldl (fun acc i => SetColor acc (fx i) (fy i) (fc i)) d) u v =
      maskColor d._mode c := by
  induction is generalizing d with
  | nil =>
    obtain ⟨i, hi, _⟩ := hhit
    exact absurd hi (List.not_mem_nil i)
  | cons i rest ih =>
    rw [List.foldl_cons]
    have hi := hin i (List.mem_cons_self _ _)
    have hd1 := wellFormed_SetColor d (fx i) (fy i) (fc i) hd
    have hin1 : ∀ j ∈ rest, fx j < GetWidth d ∧ fy j < GetHeight d :=
      fun j hj => hin j (List.mem_cons_of_mem _ hj)
    by_cases hrest : ∃ j ∈ rest, (fx j, fy j) = (u, v)
    · exact ih (SetColor d (fx i) (fy i) (fc i)) hd1 hu hv hin1
        (fun j hj => hc j (List.mem_cons_of_mem _ hj)) hrest
    · have hmiss : ∀ j ∈ rest, (fx j, fy j) ≠ (u, v) :=
        fun j hj e => hrest ⟨j, hj, e⟩
      have hhere : (fx i, fy i) = (u, v) := by
        obtain ⟨j, hj, e⟩ := hhit
        rcases List.mem_cons.1 hj with h | h
        · rw [← h]
          exact e
        · exact absurd e (hmiss j h)
      rw [readPixel_foldl_SetColor_other fx fy fc u v rest _ hd1 hu hv hin1 hmiss]
      have hx : fx i = u := congrArg Prod.fst hhere
      have hy : fy i = v := congrArg Prod.snd hhere
      rw [hx, hy, hc i (List.mem_cons_self _ _)]
      exact readPixel_SetColor_same d u v c hd hu hv

/-- A byte of the frame all of whose slots read the masked colour is the
broadcast byte of that colour. -/
theorem byte_eq_broadcastByte (m : Mode) (c b i : Nat) (hb : b < 256)
    (hi : i < frameBytes m)
    (hslots : ∀ q ∈ physicalRect m, byteIndex m q = i → unpackPixel m q b = maskColor m c) :
    b = broadcastByte m c := by
  have paged : ∀ W H : Nat, 0 < W → i < W * H / 8 → H % 8 = 0 →
      (∀ q : Nat × Nat, q.1 < W ∧ q.2 < H → (q.2 / 8) * W + q.1 = i →
        (b >>> (q.2 % 8)) &&& 1 = c % 2) →
      b = if c &&& 1 = 1 then 0xFF else 0x00 := by
    intro W H hW hiW hH8 hq
    have hbits : ∀ k, k < 8 → b.testBit k = c.testBit 0 := by
      intro k hk
      have hdiv : i / W < H / 8 := by
        rw [Nat.div_lt_iff_lt_mul hW]
        calc i < W * H / 8 := hiW
          _ = W * (H / 8 * 8) / 8 := by rw [Nat.div_mul_cancel (Nat.dvd_of_mod_eq_zero hH8)]
          _ = H / 8 * W := by
            rw [← Nat.mul_assoc, Nat.mul_div_cancel _ (by decide : 0 < 8), Nat.mul_comm]
      have hmod : i % W < W := Nat.mod_lt _ hW
      have h := hq (i % W, (i / W) * 8 + k) ⟨hmod, by simp only; omega⟩
        (by
          simp only
          have e : (i / W * 8 + k) / 8 = i / W := by omega
          rw [e, Nat.mul_comm]
          exact Nat.div_add_mod i W)
      simp only at h
      have e : (i / W * 8 + k) % 8 = k := by omega
      rw [e, shiftRight_and_one] at h
      rw [Nat.testBit_zero]
      rcases Nat.mod_two_eq_zero_or_one c with hc | hc
      · rw [hc] at h
        cases hbk : b.testBit k
        · simp [hc]
        · rw [hbk] at h
          exact absurd h (by decide)
      · rw [hc] at h
        cases hbk : b.testBit k
        · rw [hbk] at h
          exact absurd h (by decide)
        · simp [hc]
    apply Nat.eq_of_testBit_eq
    intro j
    have hc1 : c &&& 1 = c % 2 := Nat.and_one_is_mod c
    rw [hc1]
    by_cases hj : j < 8
    · rw [hbits j hj, Nat.testBit_zero]
      rcases Nat.mod_two_eq_zero_or_one c with hc | hc
      · simp [hc]
      · rw [hc, if_pos rfl, testBit_255]
        simp [hj]
    · have hbj : b.testBit j = false :=
        Nat.testBit_lt_two_pow (lt_of_lt_of_le hb (by
          calc 256 = 2 ^ 8 := by rfl
            _ ≤ 2 ^ j := Nat.pow_le_pow_right (by decide) (by omega)))
      rw [hbj]
      rcases Nat.mod_two_eq_zero_or_one c with hc | hc
      · simp [hc]
      · rw [hc, if_pos rfl, testBit_255]
        simp [hj]
  cases m
  · exact paged SH1106.Width SH1106.Height (by decide) hi (by decide)
      (fun q hq hqi => hslots q hq hqi)
  · exact paged SSD1305.Width SSD1305.Height (by decide) hi (by decide)
      (fun q hq hqi => hslots q hq hqi)
  · have hi2 : i < 8192 := hi
    have hhigh := hslots ((i % 128) * 2, i / 128)
      (by
        show (i % 128) * 2 < 256 ∧ i / 128 < 64
        omega)
      (by
        show i / 128 * (256 / 2) + (i % 128) * 2 / 2 = i
        omega)
    have hlow := hslots ((i % 128) * 2 + 1, i / 128)
      (by
        show (i % 128) * 2 + 1 < 256 ∧ i / 128 < 64
        omega)
      (by
        show i / 128 * (256 / 2) + ((i % 128) * 2 + 1) / 2 = i
        omega)
    have hmask : maskColor Mode.SSD1322 c = c % 2 ^ 4 := rfl
    rw [hmask] at hhigh hlow
    simp only [unpackPixel] at hhigh hlow
    rw [if_pos (by omega)] at hhigh
    rw [if_neg (by omega)] at hlow
    simp only [broadcastByte]
    apply Nat.eq_of_testBit_eq
    intro j
    have hh := congrArg (fun n => Nat.testBit n (j - 4)) hhigh
    have hl := congrArg (fun n => Nat.testBit n j) hlow
    simp only [Nat.testBit_and, Nat.testBit_shiftRight, testBit_15,
      Nat.testBit_mod_two_pow] at hh hl
    simp only [Nat.testBit_or, Nat.testBit_and, Nat.testBit_shiftLeft, testBit_15]
    by_cases h4 : j < 4
    · have h1 : ¬ 4 ≤ j := by omega
      simp only [h4, decide_True, Bool.and_true, Bool.true_and] at hl
      simp [h4, h1, hl]
    · have hge : 4 ≤ j := by omega
      by_cases h8 : j < 8
      · have h5 : j - 4 < 4 := by omega
        have h6 : 4 + (j - 4) = j := by omega
        simp only [h5, h6, decide_True, Bool.and_true, Bool.true_and] at hh
        simp [h4, hge, h5, hh]
      · have hbj : b.testBit j = false :=
          Nat.testBit_lt_two_pow (lt_of_lt_of_le hb (by
            calc 256 = 2 ^ 8 := by rfl
              _ ≤ 2 ^ j := Nat.pow_le_pow_right (by decide) (by omega)))
        have h5 : ¬ j - 4 < 4 := by omega
        simp [h4, hge, h5, hbj]

/-- In a well-formed driver whose in-bounds pixels all read one masked colour,
every byte of the frame is the broadcast byte of that colour. -/
theorem bufferByte_eq_broadcastByte_of_readPixel (d : Driver) (c i : Nat)
    (hd : WellFormed d) (hi : i < frameBytes d._mode)
    (hall : ∀ u v, u < GetWidth d → v < GetHeight d →
      readPixel d u v = maskColor d._mode c) :
    bufferByte d i = broadcastByte d._mode c := by
  apply byte_eq_broadcastByte d._mode c (bufferByte d i) i
    (getD_lt_of_forall_mem _ _ hd.2.1) hi
  intro q hq hqi
  have hinv := scanInverse_mem d._mode d._state.scanDir q hq
  have hround := scanTransform_scanInverse d._mode d._state.scanDir q hq
  obtain ⟨_, _, hw, hh⟩ := hd
  have h := hall (scanInverse d._mode d._state.scanDir q).1
    (scanInverse d._mode d._state.scanDir q).2
    (by simp only [GetWidth]; rw [hw]; exact hinv.1)
    (by simp only [GetHeight]; rw [hh]; exact hinv.2)
  simp only [readPixel, Prod.mk.eta, hround, hqi] at h
  exact h

/-- Row-major indexing reaches every in-bounds logical pixel. -/
theorem rowMajor_covers (w h u v : Nat) (hu : u < w) (hv : v < h) :
    ∃ i ∈ List.range (w * h), (i % w, i / w) = (u, v) := by
  refine ⟨v * w + u, ?_, ?_⟩
  · rw [List.mem_range]
    calc v * w + u < v * w + w := by omega
      _ = (v + 1) * w := by rw [Nat.add_mul, Nat.one_mul]
      _ ≤ h * w := Nat.mul_le_mul_right _ hv
      _ = w * h := Nat.mul_comm _ _
  · have hw : 0 < w := by omega
    have e1 : (v * w + u) % w = u := by
      rw [Nat.add_comm, Nat.add_mul_mod_self_right, Nat.mod_eq_of_lt hu]
    have e2 : (v * w + u) / w = v := by
      rw [Nat.add_comm, Nat.add_mul_div_right _ _ hw, Nat.div_eq_of_lt hu, Nat.zero_add]
    rw [e1, e2]

/-- Row-major indexing stays inside the logical rectangle. -/
theorem rowMajor_inBounds (w h i : Nat) (hi : i ∈ List.range (w * h)) :
    i % w < w ∧ i / w < h := by
  rw [List.mem_range] at hi
  have hw : 0 < w := by
    rcases Nat.eq_zero_or_pos w with h0 | h0
    · rw [h0, Nat.zero_mul] at hi
      exact absurd hi (Nat.not_lt_zero _)
    · exact h0
  exact ⟨Nat.mod_lt _ hw, (Nat.div_lt_iff_lt_mul hw).2 (by rw [Nat.mul_comm]; exact hi)⟩

end Wrappers.Driver

/-! ## Theorems: `CopyGLBuffer` -/

namespace Wrappers.Driver

/-- C9: for every mode, every scan direction and every sample value `v`,
`CopyGLBuffer` applied to a source of exactly `width * height` samples all
equal to `v` leaves the native frame identical to the one produced by
`Clear(m(v))`, where `m` is the downsampling of the profile, and it leaves the
mode and `_state` as `Clear` does. -/
theorem copyGLBuffer_uniform_eq_clear (threshold : Nat) (d : Driver) (v : Nat)
    (hd : WellFormed d) :
    (∀ i : Nat, i < frameBytes d._mode →
      bufferByte (CopyGLBuffer threshold d (List.replicate (GetWidth d * GetHeight d) v)) i =
        bufferByte (Clear d (downsample threshold d._mode v)) i) ∧
    (CopyGLBuffer threshold d (List.replicate (GetWidth d * GetHeight d) v))._mode =
      (Clear d (downsample threshold d._mode v))._mode ∧
    (CopyGLBuffer threshold d (List.replicate (GetWidth d * GetHeight d) v))._state =
      (Clear d (downsample threshold d._mode v))._state := by
  have hinv : WellFormed (CopyGLBuffer threshold d
        (List.replicate (GetWidth d * GetHeight d) v)) ∧
      (CopyGLBuffer threshold d (List.replicate (GetWidth d * GetHeight d) v))._mode =
        d._mode ∧
      (CopyGLBuffer threshold d (List.replicate (GetWidth d * GetHeight d) v))._state =
        d._state :=
    foldl_SetColor_invariant (fun i => i % GetWidth d) (fun i => i / GetWidth d)
      (fun i => downsample threshold d._mode
        ((List.replicate (GetWidth d * GetHeight d) v).getD i 0))
      (List.range (GetWidth d * GetHeight d)) d hd
  have hread : ∀ u w, u < GetWidth d → w < GetHeight d →
      readPixel (CopyGLBuffer threshold d (List.replicate (GetWidth d * GetHeight d) v)) u w =
        maskColor d._mode (downsample threshold d._mode v) := by
    intro u w hu hw
    exact readPixel_foldl_SetColor_hit (fun i => i % GetWidth d) (fun i => i / GetWidth d)
      (fun i => downsample threshold d._mode
        ((List.replicate (GetWidth d * GetHeight d) v).getD i 0))
      (downsample threshold d._mode v) u w (List.range (GetWidth d * GetHeight d)) d hd
      hu hw (fun j hj => rowMajor_inBounds _ _ j hj)
      (fun j hj => by
        simp only
        rw [getD_replicate_lt _ _ _ (List.mem_range.1 hj)])
      (rowMajor_covers _ _ u w hu hw)
  refine ⟨?_, hinv.2.1, hinv.2.2⟩
  intro i hi
  have hfb : frameBytes d._mode ≤ _bufferSize := by cases d._mode <;> decide
  rw [bufferByte_Clear d _ i (by omega)]
  have hgoal := bufferByte_eq_broadcastByte_of_readPixel
    (CopyGLBuffer threshold d (List.replicate (GetWidth d * GetHeight d) v))
    (downsample threshold d._mode v) i hinv.1 (by rw [hinv.2.1]; exact hi)
    (by
      intro u w hu hw
      have hW : GetWidth (CopyGLBuffer threshold d
          (List.replicate (GetWidth d * GetHeight d) v)) = GetWidth d :=
        congrArg State.width hinv.2.2
      have hH : GetHeight (CopyGLBuffer threshold d
          (List.replicate (GetWidth d * GetHeight d) v)) = GetHeight d :=
        congrArg State.height hinv.2.2
      have hu1 : u < GetWidth d := by
        rw [← hW]
        exact hu
      have hw1 : w < GetHeight d := by
        rw [← hH]
        exact hw
      rw [hinv.2.1]
      exact hread u w hu1 hw1)
  rw [hinv.2.1] at hgoal
  exact hgoal

/-- Witness of C9: chip B in default orientation, threshold 128, samples 200,
read at the last byte of the frame. -/
theorem copyGLBuffer_uniform_eq_clear_witness :
    bufferByte (CopyGLBuffer 128 (Construct Mode.SSD1305 ScanDirection.Default)
      (List.replicate (128 * 32) 200)) 511 =
    bufferByte (Clear (Construct Mode.SSD1305 ScanDirection.Default) 1) 511 :=
  (copyGLBuffer_uniform_eq_clear 128 (Construct Mode.SSD1305 ScanDirection.Default) 200
    (wellFormed_Construct _ _)).1 511 (by decide)

end Wrappers.Driver

/-! ## `Display` and the lifecycle -/

namespace Wrappers.Driver

theorem length_frameBursts (d : Driver) :
    (frameBursts d).length = if d._mode = Mode.SSD1322 then 1 else Height d._mode / 8 := by
  unfold frameBursts
  cases d._mode <;> simp

end Wrappers.Driver

/-! ## Theorems: `Display` -/

namespace Wrappers.Driver

end Wrappers.Driver

/-! ## Theorems: RAM window, opcodes and pins of the header -/

namespace Wrappers.Driver

/-- C11: on chip A the 128 visible columns lie inside the 132-column physical
RAM with equal margins: `XOffset + Width + XOffset = XMax`, and for every
logical column `x < Width` the physical column `x + XOffset` satisfies
`2 ≤ x + XOffset ≤ 129 < XMax`, so no visible pixel addresses a column past
131. -/
theorem sh1106_visible_columns_in_ram :
    SH1106.XOffset + SH1106.Width + SH1106.XOffset = SH1106.XMax ∧
    SH1106.Width = 128 ∧ SH1106.XMax = 132 ∧
    XOffset Mode.SH1106 + Width Mode.SH1106 + XOffset Mode.SH1106 = XMax Mode.SH1106 ∧
    (∀ x : Nat, x < SH1106.Width →
      2 ≤ x + SH1106.XOffset ∧ x + SH1106.XOffset ≤ 129 ∧ 129 < SH1106.XMax ∧
      x + SH1106.XOffset < SH1106.XMax ∧ x + SH1106.XOffset ≤ 131) := by
  refine ⟨by decide, by decide, by decide, by decide, ?_⟩
  intro x hx
  have hw : SH1106.Width = 128 := by decide
  have ho : SH1106.XOffset = 2 := by decide
  have hm : SH1106.XMax = 132 := by decide
  rw [hw] at hx
  rw [ho, hm]
  omega

/-- Witness of C11: the last visible column, 127, is physical column 129. -/
theorem sh1106_visible_columns_in_ram_witness :
    2 ≤ 127 + SH1106.XOffset ∧ 127 + SH1106.XOffset ≤ 129 ∧ 129 < SH1106.XMax ∧
      127 + SH1106.XOffset < SH1106.XMax ∧ 127 + SH1106.XOffset ≤ 131 :=
  sh1106_visible_columns_in_ram.2.2.2.2 127 (by decide)

/-- C12: chip A has exactly `Height / 8 = 8` pages and the page-select opcodes
cover them exactly: for every row `y < Height` the command `Page + y / 8` lies
in the documented range `0xB0..0xB7`, every value of that range is reached by
some row, and for every row the start-line command `SelectLine + y` lies in
`0x40..0x7F`. -/
theorem sh1106_page_and_line_opcodes :
    SH1106.Height / 8 = 8 ∧ SH1106.Height % 8 = 0 ∧
    SH1106.Registry.PageRange = (0xB0, 0xB7) ∧
    SH1106.Registry.SelectLineRange = (0x40, 0x7F) ∧
    (∀ y : Nat, y < SH1106.Height →
      SH1106.Registry.PageRange.1 ≤ SH1106.Registry.Page + y / 8 ∧
      SH1106.Registry.Page + y / 8 ≤ SH1106.Registry.PageRange.2) ∧
    (∀ c : Nat, SH1106.Registry.PageRange.1 ≤ c → c ≤ SH1106.Registry.PageRange.2 →
      ∃ y : Nat, y < SH1106.Height ∧ SH1106.Registry.Page + y / 8 = c) ∧
    (∀ y : Nat, y < SH1106.Height →
      SH1106.Registry.SelectLineRange.1 ≤ SH1106.Registry.SelectLine + y ∧
      SH1106.Registry.SelectLine + y ≤ SH1106.Registry.SelectLineRange.2) := by
  have hh : SH1106.Height = 64 := by decide
  have hp : SH1106.Registry.Page = 0xB0 := rfl
  have hl : SH1106.Registry.SelectLine = 0x40 := rfl
  have hpr : SH1106.Registry.PageRange = (0xB0, 0xB7) := rfl
  have hlr : SH1106.Registry.SelectLineRange = (0x40, 0x7F) := rfl
  refine ⟨by decide, by decide, rfl, rfl, ?_, ?_, ?_⟩
  · intro y hy
    rw [hh] at hy
    rw [hpr, hp]
    constructor <;> simp only <;> omega
  · intro c h1 h2
    rw [hpr] at h1 h2
    simp only at h1 h2
    refine ⟨(c - 0xB0) * 8, ?_, ?_⟩
    · rw [hh]
      omega
    · rw [hp]
      omega
  · intro y hy
    rw [hh] at hy
    rw [hlr, hl]
    constructor <;> simp only <;> omega

/-- Witness of C12: row 63 selects page command `0xB7` and start-line command
`0x7F`. -/
theorem sh1106_page_and_line_opcodes_witness :
    (SH1106.Registry.PageRange.1 ≤ SH1106.Registry.Page + 63 / 8 ∧
      SH1106.Registry.Page + 63 / 8 ≤ SH1106.Registry.PageRange.2) ∧
    SH1106.Registry.Page + 63 / 8 = 0xB7 ∧ SH1106.Registry.SelectLine + 63 = 0x7F :=
  ⟨sh1106_page_and_line_opcodes.2.2.2.2.1 63 (by decide), by decide, by decide⟩

/-- C13: for both paged chips the low-column opcode carries the horizontal
offset of the chip: `SelectColumnLow = 0x00 + XOffset` (`0x02` on SH1106,
`0x00` on SSD1305); both lie in the documented low-nibble range `0x0..0xF`,
`SelectColumnHigh` is `0x10` on both, and the column addressed by the pair
(`SelectColumnHigh`, `SelectColumnLow`) is physical column `XOffset`. -/
theorem selectColumnLow_carries_offset :
    SH1106.Registry.SelectColumnLow = 0x00 + SH1106.XOffset ∧
    SH1106.Registry.SelectColumnLow = 0x02 ∧
    SSD1305.Registry.SelectColumnLow = 0x00 + SSD1305.XOffset ∧
    SSD1305.Registry.SelectColumnLow = 0x00 ∧
    (SH1106.Registry.SelectColumnLowRange.1 ≤ SH1106.Registry.SelectColumnLow ∧
      SH1106.Registry.SelectColumnLow ≤ SH1106.Registry.SelectColumnLowRange.2) ∧
    (SSD1305.Registry.SelectColumnLowRange.1 ≤ SSD1305.Registry.SelectColumnLow ∧
      SSD1305.Registry.SelectColumnLow ≤ SSD1305.Registry.SelectColumnLowRange.2) ∧
    SH1106.Registry.SelectColumnLowRange = (0x0, 0xF) ∧
    SSD1305.Registry.SelectColumnLowRange = (0x0, 0xF) ∧
    SH1106.Registry.SelectColumnHigh = 0x10 ∧
    SSD1305.Registry.SelectColumnHigh = 0x10 ∧
    columnAddress SH1106.Registry.SelectColumnHigh SH1106.Registry.SelectColumnLow =
      SH1106.XOffset ∧
    columnAddress SSD1305.Registry.SelectColumnHigh SSD1305.Registry.SelectColumnLow =
      SSD1305.XOffset := by
  decide

/-- C16: the mapping from the 8 button names to GPIO pin indices in
`PinIndices` is injective: the pin numbers 6, 19, 5, 26, 13, 21, 20, 16 are
pairwise distinct, so no two buttons read the same pin. -/
theorem pinIndices_injective :
    Function.Injective Pins.PinIndices ∧
    Pins.buttons.map Pins.PinIndices = [6, 19, 5, 26, 13, 21, 20, 16] ∧
    (Pins.buttons.map Pins.PinIndices).Nodup ∧
    Pins.buttons.length = 8 ∧
    (∀ b : Pins.Button, b ∈ Pins.buttons) ∧
    (∀ a b : Pins.Button, a ≠ b → Pins.PinIndices a ≠ Pins.PinIndices b) := by
  have hinj : Function.Injective Pins.PinIndices := by
    intro a b h
    cases a <;> cases b <;> first | rfl | (exact absurd h (by decide))
  refine ⟨hinj, by decide, by decide, by decide, ?_, ?_⟩
  · intro b
    cases b <;> decide
  · intro a b hab h
    exact hab (hinj h)

/-- Witness of C16: the up and down buttons read different pins. -/
theorem pinIndices_injective_witness :
    Pins.PinIndices Pins.Button.KeyUp ≠ Pins.PinIndices Pins.Button.KeyDown :=
  pinIndices_injective.2.2.2.2.2 Pins.Button.KeyUp Pins.Button.KeyDown (by decide)

end Wrappers.Driver
/-! ## `LoadText`: 32-bit arithmetic without overflow -/

namespace Drawers.TextString

theorem wrapUnsigned_of_lt (n : Nat) (h : n < 2 ^ 32) : wrapUnsigned n = n :=
  Nat.mod_eq_of_lt h

theorem wrapUnsigned_lt (n : Nat) : wrapUnsigned n < 2 ^ 32 :=
  Nat.mod_lt _ (by decide)

theorem wrapUnsigned_add_left (a b : Nat) :
    wrapUnsigned (wrapUnsigned a + b) = wrapUnsigned (a + b) := by
  unfold wrapUnsigned
  exact Nat.mod_add_mod a (2 ^ 32) b

theorem toUnsigned_of_nonneg (z : Int) (h0 : 0 ≤ z) (h : z < 2 ^ 32) :
    toUnsigned z = z.toNat := by
  unfold toUnsigned
  rw [Int.emod_eq_of_lt h0 h]

theorem two_pow_32_le (texBits : Nat) (h : 32 ≤ texBits) : 2 ^ 32 ≤ 2 ^ texBits :=
  Nat.pow_le_pow_right (by decide) h

theorem wrapBits_of_lt (bits n : Nat) (h : n < 2 ^ bits) : wrapBits bits n = n :=
  Nat.mod_eq_of_lt h

theorem wrapBits_lt (bits n : Nat) : wrapBits bits n < 2 ^ bits :=
  Nat.mod_lt _ (Nat.pos_pow_of_pos bits (by decide))

theorem wrapBits_add_left (bits a b : Nat) :
    wrapBits bits (wrapBits bits a + b) = wrapBits bits (a + b) := by
  unfold wrapBits
  exact Nat.mod_add_mod a (2 ^ bits) b

theorem toBits_of_nonneg (bits : Nat) (z : Int) (h0 : 0 ≤ z) (h : z.toNat < 2 ^ bits) :
    toBits bits z = z.toNat := by
  unfold toBits
  have hz : z < 2 ^ bits := by
    have : ((z.toNat : Nat) : Int) < ((2 ^ bits : Nat) : Int) := by exact_mod_cast h
    rw [Int.toNat_of_nonneg h0] at this
    exact_mod_cast this
  rw [Int.emod_eq_of_lt h0 hz]

/-- An `int` value survives the trip through `unsigned`. -/
theorem wrapInt_of_range (z : Int) (hlo : -(2 ^ 31) ≤ z) (hhi : z < 2 ^ 31) :
    wrapInt z = z := by
  unfold wrapInt toInt toUnsigned
  have hm : (z % 2 ^ 32).toNat % 2 ^ 32 = (z % 2 ^ 32).toNat := by
    apply Nat.mod_eq_of_lt
    have := Int.emod_lt_of_pos z (by norm_num : (0 : Int) < 2 ^ 32)
    have := Int.emod_nonneg z (by norm_num : (2 ^ 32 : Int) ≠ 0)
    omega
  rw [hm]
  have h0 := Int.emod_nonneg z (by norm_num : (2 ^ 32 : Int) ≠ 0)
  rw [Int.toNat_of_nonneg h0]
  by_cases hz : 0 ≤ z
  · have e : z % 2 ^ 32 = z := Int.emod_eq_of_lt hz (by omega)
    rw [e, if_pos (by omega)]
  · have e : z % 2 ^ 32 = z + 2 ^ 32 := by
      rw [← Int.add_mul_emod_self_left z (2 ^ 32) 1]
      exact Int.emod_eq_of_lt (by omega) (by omega)
    rw [e, if_neg (by omega)]
    omega

end Drawers.TextString
/-! ## `LoadText`: the measuring loop -/

namespace Drawers.TextString

theorem metrics_eq_iff (g h : Glyph) :
    metrics g = metrics h ↔
      g.width = h.width ∧ g.rows = h.rows ∧ g.bitmap_top = h.bitmap_top := by
  simp only [metrics, Prod.mk.injEq]

theorem SameMetrics.tail {load : Char → Option Glyph} {reload : Char → Glyph} {c : Char}
    {cs : List Char} (h : SameMetrics load reload (c :: cs)) : SameMetrics load reload cs :=
  fun d hd => h d (List.mem_cons_of_mem _ hd)

theorem Repeatable.sameMetrics {load : Char → Option Glyph} {reload : Char → Glyph}
    {text : List Char} (h : Repeatable load reload text) : SameMetrics load reload text :=
  fun c hc => ⟨reload c, (h c hc).1, rfl⟩

theorem foldl_max_ge_init (f : Char → Int) (text : List Char) (a : Int) :
    a ≤ text.foldl (fun a c => max a (f c)) a := by
  induction text generalizing a with
  | nil => exact le_refl _
  | cons c cs ih => exact le_trans (le_max_left _ _) (ih _)

theorem foldl_max_ge_mem (f : Char → Int) (text : List Char) (a : Int) (c : Char)
    (hc : c ∈ text) : f c ≤ text.foldl (fun a c => max a (f c)) a := by
  induction text generalizing a with
  | nil => exact absurd hc (List.not_mem_nil c)
  | cons d ds ih =>
    rcases List.mem_cons.1 hc with h | h
    · subst h
      exact le_trans (le_max_right _ _) (foldl_max_ge_init f ds _)
    · exact ih _ h

theorem foldl_max_le (f : Char → Int) (text : List Char) (a b : Int) (ha : a ≤ b)
    (h : ∀ c ∈ text, f c ≤ b) : text.foldl (fun a c => max a (f c)) a ≤ b := by
  induction text generalizing a with
  | nil => exact ha
  | cons d ds ih =>
    exact ih _ (max_le ha (h d (List.mem_cons_self _ _)))
      (fun c hc => h c (List.mem_cons_of_mem _ hc))

theorem totalWidth_cons (reload : Char → Glyph) (c : Char) (cs : List Char) :
    totalWidth reload (c :: cs) = (reload c).width + totalWidth reload cs := by
  simp [totalWidth]

theorem totalWidth_nil (reload : Char → Glyph) : totalWidth reload [] = 0 := rfl

/-- When every character loads, with the metrics of the copying pass, and
every `bitmap.rows - bitmap_top` is in the `int` range, the measuring loop
returns: the width has grown by the widths of all glyphs, modulo
`2 ^ texBits`, and `glyphHeight` and `glyphLowth` are the running maxima. -/
theorem measureLoop_ok (texBits : Nat) (load : Char → Option Glyph) (reload : Char → Glyph)
    (text : List Char) (h : SameMetrics load reload text)
    (hcast : ∀ c ∈ text, -(2 ^ 31) ≤ ((reload c).rows : Int) - (reload c).bitmap_top ∧
      ((reload c).rows : Int) - (reload c).bitmap_top < 2 ^ 31)
    (s : Measure) (hs : s.width < 2 ^ texBits) :
    ∃ m, measureLoop texBits load text s = Except.ok m ∧
      m.width = wrapBits texBits (s.width + totalWidth reload text) ∧
      m.glyphHeight = text.foldl (fun a c => max a (reload c).bitmap_top) s.glyphHeight ∧
      m.glyphLowth =
        text.foldl (fun a c => max a (((reload c).rows : Int) - (reload c).bitmap_top))
          s.glyphLowth := by
  induction text generalizing s with
  | nil =>
    exact ⟨s, rfl, by rw [totalWidth_nil, Nat.add_zero, wrapBits_of_lt _ _ hs], rfl, rfl⟩
  | cons c cs ih =>
    obtain ⟨g, hg, hm⟩ := h c (List.mem_cons_self _ _)
    rw [metrics_eq_iff] at hm
    obtain ⟨hw, hr, ht⟩ := hm
    have hc := hcast c (List.mem_cons_self _ _)
    obtain ⟨m, hmeas, hwidth, hgh, hgl⟩ := ih h.tail
      (fun d hd => hcast d (List.mem_cons_of_mem _ hd)) (measureStep texBits s g)
      (wrapBits_lt _ _)
    refine ⟨m, ?_, ?_, ?_, ?_⟩
    · simp only [measureLoop, hg]
      exact hmeas
    · rw [hwidth]
      simp only [measureStep]
      rw [wrapBits_add_left, totalWidth_cons, hw, Nat.add_assoc]
    · rw [hgh]
      simp only [measureStep, List.foldl_cons, ht]
    · rw [hgl]
      simp only [measureStep, List.foldl_cons]
      have e : toInt (toUnsigned ((g.rows : Int) - g.bitmap_top)) =
          ((reload c).rows : Int) - (reload c).bitmap_top := by
        rw [hr, ht]
        exact wrapInt_of_range _ hc.1 hc.2
      rw [e]

/-- The glyphs of a text whose texture fits: every `bitmap_top` is at most
`maxTop`, every `bitmap.rows - bitmap_top` at most `maxLow`. -/
theorem le_maxTop (reload : Char → Glyph) (text : List Char) (c : Char) (hc : c ∈ text) :
    (reload c).bitmap_top ≤ maxTop reload text :=
  foldl_max_ge_mem (fun c => (reload c).bitmap_top) text 0 c hc

theorem le_maxLow (reload : Char → Glyph) (text : List Char) (c : Char) (hc : c ∈ text) :
    ((reload c).rows : Int) - (reload c).bitmap_top ≤ maxLow reload text :=
  foldl_max_ge_mem (fun c => ((reload c).rows : Int) - (reload c).bitmap_top) text 0 c hc

theorem maxTop_nonneg (reload : Char → Glyph) (text : List Char) : 0 ≤ maxTop reload text :=
  foldl_max_ge_init (fun c => (reload c).bitmap_top) text 0

theorem maxLow_nonneg (reload : Char → Glyph) (text : List Char) : 0 ≤ maxLow reload text :=
  foldl_max_ge_init (fun c => ((reload c).rows : Int) - (reload c).bitmap_top) text 0

/-- When the texture fits, the measuring loop computes its exact size. -/
theorem measureLoop_fits (texBits : Nat) (hbits : 32 ≤ texBits)
    (load : Char → Option Glyph) (reload : Char → Glyph)
    (width0 : Nat) (text : List Char) (h : SameMetrics load reload text)
    (hfit : FitsInt reload width0 text) :
    ∃ m, measureLoop texBits load text (measureInit width0) = Except.ok m ∧
      m.width = width0 + totalWidth reload text ∧
      m.glyphHeight = maxTop reload text ∧
      m.glyphLowth = maxLow reload text := by
  obtain ⟨hW, hH, _⟩ := hfit
  have hcast : ∀ c ∈ text, -(2 ^ 31) ≤ ((reload c).rows : Int) - (reload c).bitmap_top ∧
      ((reload c).rows : Int) - (reload c).bitmap_top < 2 ^ 31 := by
    intro c hc
    have h1 := le_maxTop reload text c hc
    have h2 := le_maxLow reload text c hc
    have h3 := maxTop_nonneg reload text
    have h4 := maxLow_nonneg reload text
    constructor <;> omega
  have hpow := two_pow_32_le texBits hbits
  have hw0 : (measureInit width0).width < 2 ^ texBits := by
    show width0 < 2 ^ texBits
    omega
  obtain ⟨m, hm, hwidth, hgh, hgl⟩ :=
    measureLoop_ok texBits load reload text h hcast (measureInit width0) hw0
  refine ⟨m, hm, ?_, hgh, hgl⟩
  rw [hwidth]
  show wrapBits texBits (width0 + totalWidth reload text) = _
  exact wrapBits_of_lt _ _ (by omega)

end Drawers.TextString
/-! ## `LoadText`: folding writes over a buffer -/

namespace Drawers.TextString

theorem bufGetD_set_self (l : List Nat) (i v : Nat) (h : i < l.length) :
    (l.set i v).getD i 0 = v := by
  rw [List.getD_eq_getElem?_getD, List.getElem?_set_self h]
  rfl

theorem bufGetD_set_ne (l : List Nat) (i j v : Nat) (h : i ≠ j) :
    (l.set i v).getD j 0 = l.getD j 0 := by
  rw [List.getD_eq_getElem?_getD, List.getD_eq_getElem?_getD, List.getElem?_set_ne h]

theorem length_addPixel (buf : List Nat) (a v : Nat) :
    (addPixel buf a v).length = buf.length :=
  List.length_set _ _ _

theorem getD_addPixel_self (buf : List Nat) (a v : Nat) (hlt : a < buf.length) :
    (addPixel buf a v).getD a 0 = (buf.getD a 0 + v) % 256 :=
  bufGetD_set_self _ _ _ hlt

theorem getD_addPixel_ne (buf : List Nat) (a v j : Nat) (h : a ≠ j) :
    (addPixel buf a v).getD j 0 = buf.getD j 0 :=
  bufGetD_set_ne _ _ _ _ h

theorem length_foldl_addPixel (ws : List (Nat × Nat)) (buf : List Nat) :
    (ws.foldl (fun b w => addPixel b w.1 w.2) buf).length = buf.length := by
  induction ws generalizing buf with
  | nil => rfl
  | cons w rest ih =>
    rw [List.foldl_cons, ih, length_addPixel]

/-- A cell that no write addresses keeps its value. -/
theorem getD_foldl_addPixel_of_not_mem (ws : List (Nat × Nat)) (buf : List Nat) (j : Nat)
    (h : ∀ w ∈ ws, w.1 ≠ j) :
    (ws.foldl (fun b w => addPixel b w.1 w.2) buf).getD j 0 = buf.getD j 0 := by
  induction ws generalizing buf with
  | nil => rfl
  | cons w rest ih =>
    rw [List.foldl_cons, ih _ (fun u hu => h u (List.mem_cons_of_mem _ hu))]
    exact getD_addPixel_ne _ _ _ _ (h w (List.mem_cons_self _ _))

/-- When no two writes share an address, the cell of a write ends as its old
value plus the byte written, modulo 256. -/
theorem getD_foldl_addPixel_of_mem (ws : List (Nat × Nat)) (buf : List Nat)
    (hnd : (ws.map Prod.fst).Nodup)
    (hin : ∀ w ∈ ws, w.1 < buf.length)
    (w : Nat × Nat) (hw : w ∈ ws) :
    (ws.foldl (fun b w => addPixel b w.1 w.2) buf).getD w.1 0 =
      (buf.getD w.1 0 + w.2) % 256 := by
  induction ws generalizing buf with
  | nil => exact absurd hw (List.not_mem_nil w)
  | cons w0 rest ih =>
    rw [List.map_cons, List.nodup_cons] at hnd
    obtain ⟨hnot, hrest⟩ := hnd
    have hin0 := hin w0 (List.mem_cons_self _ _)
    have hinr : ∀ u ∈ rest, u.1 < (addPixel buf w0.1 w0.2).length := by
      intro u hu
      rw [length_addPixel]
      exact hin u (List.mem_cons_of_mem _ hu)
    rw [List.foldl_cons]
    rcases List.mem_cons.1 hw with heq | hmem
    · rw [heq]
      rw [getD_foldl_addPixel_of_not_mem rest _ w0.1]
      · exact getD_addPixel_self _ _ _ hin0
      · intro u hu hne
        apply hnot
        rw [List.mem_map]
        exact ⟨u, hu, hne⟩
    · rw [ih _ hrest hinr hmem]
      have hne : w0.1 ≠ w.1 := by
        intro e
        apply hnot
        rw [List.mem_map]
        exact ⟨w, hmem, e.symm⟩
      rw [getD_addPixel_ne _ _ _ _ hne]

/-- On cells that hold zero, adding a byte is assigning it. -/
theorem foldl_addPixel_eq_setPixel (ws : List (Nat × Nat)) (buf : List Nat)
    (hnd : (ws.map Prod.fst).Nodup)
    (hzero : ∀ w ∈ ws, buf.getD w.1 0 = 0) :
    ws.foldl (fun b w => addPixel b w.1 w.2) buf =
      ws.foldl (fun b w => setPixel b w.1 w.2) buf := by
  induction ws generalizing buf with
  | nil => rfl
  | cons w0 rest ih =>
    rw [List.map_cons, List.nodup_cons] at hnd
    obtain ⟨hnot, hrest⟩ := hnd
    have h0 : addPixel buf w0.1 w0.2 = setPixel buf w0.1 w0.2 := by
      unfold addPixel setPixel
      rw [hzero w0 (List.mem_cons_self _ _), Nat.zero_add]
    rw [List.foldl_cons, List.foldl_cons, ← h0]
    apply ih _ hrest
    intro u hu
    have hne : w0.1 ≠ u.1 := by
      intro e
      apply hnot
      rw [List.mem_map]
      exact ⟨u, hu, e.symm⟩
    rw [getD_addPixel_ne _ _ _ _ hne]
    exact hzero u (List.mem_cons_of_mem _ hu)

/-- A fold over a product of two lists is the nested fold. -/
theorem foldl_product_eq {β : Type} (f : β → Nat × Nat → β) (l₁ l₂ : List Nat) (b : β) :
    (List.product l₁ l₂).foldl f b =
      l₁.foldl (fun acc y => l₂.foldl (fun acc x => f acc (y, x)) acc) b := by
  induction l₁ generalizing b with
  | nil => rfl
  | cons a rest ih =>
    have e : (a :: rest).product l₂ = List.map (fun x => (a, x)) l₂ ++ rest.product l₂ := rfl
    rw [e, List.foldl_append, List.foldl_map, List.foldl_cons, ih]

end Drawers.TextString
/-! ## `LoadText`: the copy loop as a fold over its writes -/

namespace Drawers.TextString

theorem copyGlyph_eq_foldl (W : Nat) (gh : Int) (xo : Nat) (g : Glyph) (buf : List Nat) :
    copyGlyph W gh xo g buf =
      (glyphWrites W gh xo g).foldl (fun b w => addPixel b w.1 w.2) buf := by
  unfold copyGlyph glyphWrites
  rw [List.foldl_map, foldl_product_eq]

/-- The copy loop performs exactly the writes of `copyWrites`, in order. -/
theorem copyLoop_eq_foldl (reload : Char → Glyph) (W : Nat) (gh : Int) (text : List Char)
    (st : List Nat × Nat) :
    (copyLoop reload W gh text st).1 =
      (copyWrites reload W gh text st.2).foldl (fun b w => addPixel b w.1 w.2) st.1 := by
  induction text generalizing st with
  | nil => simp [copyLoop, copyWrites]
  | cons c cs ih =>
    simp only [copyLoop, copyWrites, List.foldl_append]
    rw [ih, copyGlyph_eq_foldl]

theorem copyWrites_cons (reload : Char → Glyph) (W : Nat) (gh : Int) (c : Char)
    (cs : List Char) (xo : Nat) :
    copyWrites reload W gh (c :: cs) xo =
      glyphWrites W gh xo (reload c) ++
        copyWrites reload W gh cs (wrapUnsigned (xo + (reload c).width)) := rfl

theorem mem_glyphWrites (W : Nat) (gh : Int) (xo : Nat) (g : Glyph) (w : Nat × Nat) :
    w ∈ glyphWrites W gh xo g ↔
      ∃ x y, x < g.width ∧ y < g.rows ∧
        w = (textureAddr W gh xo g x y, letterPixValue g x y) := by
  unfold glyphWrites
  rw [List.mem_map]
  constructor
  · rintro ⟨⟨y, x⟩, hp, rfl⟩
    have hp2 : y ∈ List.range g.rows ∧ x ∈ List.range g.width := List.mem_product.1 hp
    exact ⟨x, y, List.mem_range.1 hp2.2, List.mem_range.1 hp2.1, rfl⟩
  · rintro ⟨x, y, hx, hy, rfl⟩
    exact ⟨(y, x), List.mem_product.2 ⟨List.mem_range.2 hy, List.mem_range.2 hx⟩, rfl⟩

theorem xOffsetFrom_zero (reload : Char → Glyph) (text : List Char) (xo : Nat) :
    xOffsetFrom reload text xo 0 = xo := by
  cases text <;> rfl

theorem xOffsetFrom_cons_succ (reload : Char → Glyph) (c : Char) (cs : List Char)
    (xo i : Nat) :
    xOffsetFrom reload (c :: cs) xo (i + 1) =
      xOffsetFrom reload cs (wrapUnsigned (xo + (reload c).width)) i := rfl

/-- The writes of the copy loop are those of every glyph of the text, each at
the `xOffset` the loop has when it reaches the glyph. -/
theorem mem_copyWrites (reload : Char → Glyph) (W : Nat) (gh : Int) (text : List Char)
    (xo : Nat) (w : Nat × Nat) :
    w ∈ copyWrites reload W gh text xo ↔
      ∃ i c x y, text[i]? = some c ∧ x < (reload c).width ∧ y < (reload c).rows ∧
        w = (textureAddr W gh (xOffsetFrom reload text xo i) (reload c) x y,
          letterPixValue (reload c) x y) := by
  induction text generalizing xo with
  | nil =>
    simp [copyWrites]
  | cons c cs ih =>
    simp only [copyWrites, List.mem_append, mem_glyphWrites, ih]
    constructor
    · rintro (⟨x, y, hx, hy, rfl⟩ | ⟨i, d, x, y, hi, hx, hy, rfl⟩)
      · exact ⟨0, c, x, y, by simp, hx, hy, by rw [xOffsetFrom_zero]⟩
      · exact ⟨i + 1, d, x, y, by simpa using hi, hx, hy, by rw [xOffsetFrom_cons_succ]⟩
    · rintro ⟨i, d, x, y, hi, hx, hy, rfl⟩
      cases i with
      | zero =>
        left
        have hd : c = d := by simpa using hi
        subst hd
        exact ⟨x, y, hx, hy, by rw [xOffsetFrom_zero]⟩
      | succ j =>
        right
        exact ⟨j, d, x, y, by simpa using hi, hx, hy, by rw [xOffsetFrom_cons_succ]⟩

theorem mem_of_getElem?_eq_some (text : List Char) (i : Nat) (c : Char)
    (hi : text[i]? = some c) : c ∈ text := by
  rw [List.getElem?_eq_some] at hi
  obtain ⟨h, rfl⟩ := hi
  exact List.getElem_mem h

/-- In 32-bit arithmetic, `xOffset` at character `i` is the sum of the widths
of the glyphs before it, modulo `2 ^ 32`. -/
theorem xOffsetFrom_eq_wrap (reload : Char → Glyph) (text : List Char) (xo i : Nat)
    (hxo : xo < 2 ^ 32) :
    xOffsetFrom reload text xo i = wrapUnsigned (xo + totalWidth reload (text.take i)) := by
  induction text generalizing xo i with
  | nil =>
    cases i <;> simp [xOffsetFrom, totalWidth, wrapUnsigned_of_lt _ hxo]
  | cons c cs ih =>
    cases i with
    | zero =>
      rw [xOffsetFrom_zero]
      simp [totalWidth, wrapUnsigned_of_lt _ hxo]
    | succ j =>
      rw [xOffsetFrom_cons_succ, ih _ _ (wrapUnsigned_lt _), wrapUnsigned_add_left,
        List.take_succ_cons, totalWidth_cons, Nat.add_assoc]

/-- The glyph at position `i` ends at or before the total width. -/
theorem totalWidth_take_add_le (reload : Char → Glyph) (text : List Char) (i : Nat) (c : Char)
    (hi : text[i]? = some c) :
    totalWidth reload (text.take i) + (reload c).width ≤ totalWidth reload text := by
  induction text generalizing i with
  | nil => simp at hi
  | cons d ds ih =>
    cases i with
    | zero =>
      have hd : d = c := by simpa using hi
      subst hd
      rw [List.take_zero, totalWidth_nil, totalWidth_cons]
      omega
    | succ j =>
      have hj : ds[j]? = some c := by simpa using hi
      have := ih j hj
      rw [List.take_succ_cons, totalWidth_cons, totalWidth_cons]
      omega

/-- The glyph at position `i` ends at or before the start of a later glyph. -/
theorem totalWidth_take_add_le_take (reload : Char → Glyph) (text : List Char) (i j : Nat)
    (c : Char) (hi : text[i]? = some c) (hij : i < j) :
    totalWidth reload (text.take i) + (reload c).width ≤ totalWidth reload (text.take j) := by
  have h1 : (text.take j)[i]? = some c := by
    rw [List.getElem?_take_of_lt hij]
    exact hi
  have h2 := totalWidth_take_add_le reload (text.take j) i c h1
  rw [List.take_take, Nat.min_eq_left (Nat.le_of_lt hij)] at h2
  exact h2

/-- Without overflow, `xOffset` at character `i` is the sum of the widths of
the glyphs before it. -/
theorem xOffsetFrom_eq (reload : Char → Glyph) (text : List Char) (xo i : Nat) (c : Char)
    (hi : text[i]? = some c) (hfit : xo + totalWidth reload text < 2 ^ 32) :
    xOffsetFrom reload text xo i = xo + totalWidth reload (text.take i) := by
  have := totalWidth_take_add_le reload text i c hi
  rw [xOffsetFrom_eq_wrap reload text xo i (by omega)]
  exact wrapUnsigned_of_lt _ (by omega)

end Drawers.TextString
/-! ## `LoadText`: where the writes land -/

namespace Drawers.TextString

theorem cell_lt (W H r c : Nat) (hc : c < W) (hr : r < H) : r * W + c < W * H := by
  calc r * W + c < r * W + W := by omega
    _ = (r + 1) * W := by rw [Nat.add_mul, Nat.one_mul]
    _ ≤ H * W := Nat.mul_le_mul_right _ hr
    _ = W * H := Nat.mul_comm _ _

theorem cell_inj (W r c r' c' : Nat) (hc : c < W) (hc' : c' < W)
    (h : r * W + c = r' * W + c') : r = r' ∧ c = c' := by
  have hW : 0 < W := by omega
  have hm : c = c' := by
    have h1 := congrArg (fun n => n % W) h
    simp only [Nat.add_comm (_ * W), Nat.add_mul_mod_self_right] at h1
    rwa [Nat.mod_eq_of_lt hc, Nat.mod_eq_of_lt hc'] at h1
  have hd : r = r' := by
    have h1 := congrArg (fun n => n / W) h
    simp only [Nat.add_comm (_ * W), Nat.add_mul_div_right _ _ hW] at h1
    rwa [Nat.div_eq_of_lt hc, Nat.div_eq_of_lt hc', Nat.zero_add, Nat.zero_add] at h1
  exact ⟨hd, hm⟩

/-- With `bitmap_top` at most `glyphHeight` and no overflow, the destination
index is the cell in row `glyphHeight - bitmap_top + y` and column
`xOffset + x`. -/
theorem textureAddr_eq_cell (W : Nat) (gh : Int) (xo : Nat) (g : Glyph) (x y : Nat)
    (htop : g.bitmap_top ≤ gh) (hgh : gh - g.bitmap_top < 2 ^ 31) (hW : 0 < W)
    (hlt : ((gh - g.bitmap_top).toNat + y) * W + (xo + x) < 2 ^ 32) :
    textureAddr W gh xo g x y = ((gh - g.bitmap_top).toNat + y) * W + (xo + x) := by
  have hr : (gh - g.bitmap_top).toNat + y ≤ ((gh - g.bitmap_top).toNat + y) * W :=
    Nat.le_mul_of_pos_right _ hW
  unfold textureAddr
  simp only
  rw [wrapInt_of_range _ (by omega) hgh, toUnsigned_of_nonneg _ (by omega) (by omega),
    wrapUnsigned_of_lt (xo + x) (by omega),
    wrapUnsigned_of_lt ((gh - g.bitmap_top).toNat + y) (by omega),
    wrapUnsigned_of_lt _ hlt]

/-- Without overflow, the write of pixel `(x, y)` of the glyph at position `i`
goes to the cell in row `glyphHeight - bitmap_top + y`, below the texture
height, and in column `xOffset + (widths before i) + x`, inside the columns of
the glyph. -/
theorem textureAddr_exact (reload : Char → Glyph) (W : Nat) (gh gl : Int) (text : List Char)
    (xo : Nat)
    (hfit : ∀ c ∈ text, (reload c).bitmap_top ≤ gh ∧
      ((reload c).rows : Int) - (reload c).bitmap_top ≤ gl)
    (hH : gh + gl < 2 ^ 31)
    (hwidth : xo + totalWidth reload text ≤ W)
    (hsize : W * (gh + gl).toNat < 2 ^ 32)
    (i : Nat) (c : Char) (x y : Nat) (hi : text[i]? = some c)
    (hx : x < (reload c).width) (hy : y < (reload c).rows) :
    textureAddr W gh (xOffsetFrom reload text xo i) (reload c) x y =
      ((gh - (reload c).bitmap_top).toNat + y) * W +
        (xo + totalWidth reload (text.take i) + x) ∧
    (gh - (reload c).bitmap_top).toNat + y < (gh + gl).toNat ∧
    xo + totalWidth reload (text.take i) + (reload c).width ≤ W ∧
    ((gh - (reload c).bitmap_top).toNat + y) * W +
        (xo + totalWidth reload (text.take i) + x) < W * (gh + gl).toNat := by
  have hc := hfit c (mem_of_getElem?_eq_some text i c hi)
  have hsum := totalWidth_take_add_le reload text i c hi
  have hrow : (gh - (reload c).bitmap_top).toNat + y < (gh + gl).toNat := by omega
  have hcol : xo + totalWidth reload (text.take i) + x < W := by omega
  have hcell := cell_lt W (gh + gl).toNat _ _ hcol hrow
  have hW : 0 < W := by omega
  have hWle : W ≤ W * (gh + gl).toNat := Nat.le_mul_of_pos_right _ (by omega)
  refine ⟨?_, hrow, by omega, hcell⟩
  rw [xOffsetFrom_eq reload text xo i c hi (by omega)]
  exact textureAddr_eq_cell W gh _ (reload c) x y hc.1 (by omega) hW (by omega)

/-- Without overflow, every write of the copy loop is inside the texture. -/
theorem copyWrites_in_bounds (reload : Char → Glyph) (W : Nat) (gh gl : Int)
    (text : List Char) (xo : Nat)
    (hfit : ∀ c ∈ text, (reload c).bitmap_top ≤ gh ∧
      ((reload c).rows : Int) - (reload c).bitmap_top ≤ gl)
    (hH : gh + gl < 2 ^ 31)
    (hwidth : xo + totalWidth reload text ≤ W)
    (hsize : W * (gh + gl).toNat < 2 ^ 32)
    (w : Nat × Nat) (hw : w ∈ copyWrites reload W gh text xo) :
    w.1 < W * (gh + gl).toNat := by
  rw [mem_copyWrites] at hw
  obtain ⟨i, d, x, y, hi, hx, hy, rfl⟩ := hw
  obtain ⟨he, _, _, hlt⟩ :=
    textureAddr_exact reload W gh gl text xo hfit hH hwidth hsize i d x y hi hx hy
  simp only
  rw [he]
  exact hlt

/-- Without overflow, two writes of the copy loop to the same cell are the
same write: same glyph position, same pixel. -/
theorem textureAddr_injective (reload : Char → Glyph) (W : Nat) (gh gl : Int)
    (text : List Char) (xo : Nat)
    (hfit : ∀ c ∈ text, (reload c).bitmap_top ≤ gh ∧
      ((reload c).rows : Int) - (reload c).bitmap_top ≤ gl)
    (hH : gh + gl < 2 ^ 31)
    (hwidth : xo + totalWidth reload text ≤ W)
    (hsize : W * (gh + gl).toNat < 2 ^ 32)
    (i : Nat) (c : Char) (x y : Nat) (hi : text[i]? = some c)
    (hx : x < (reload c).width) (hy : y < (reload c).rows)
    (j : Nat) (d : Char) (x' y' : Nat) (hj : text[j]? = some d)
    (hx' : x' < (reload d).width) (hy' : y' < (reload d).rows)
    (he : textureAddr W gh (xOffsetFrom reload text xo i) (reload c) x y =
      textureAddr W gh (xOffsetFrom reload text xo j) (reload d) x' y') :
    i = j ∧ x = x' ∧ y = y' := by
  obtain ⟨h1, _, hc1, _⟩ :=
    textureAddr_exact reload W gh gl text xo hfit hH hwidth hsize i c x y hi hx hy
  obtain ⟨h2, _, hc2, _⟩ :=
    textureAddr_exact reload W gh gl text xo hfit hH hwidth hsize j d x' y' hj hx' hy'
  rw [h1, h2] at he
  obtain ⟨hr, hcol⟩ := cell_inj W _ _ _ _ (by omega) (by omega) he
  have hij : i = j := by
    rcases Nat.lt_trichotomy i j with hlt | heq | hgt
    · have := totalWidth_take_add_le_take reload text i j c hi hlt
      omega
    · exact heq
    · have := totalWidth_take_add_le_take reload text j i d hj hgt
      omega
  subst hij
  have hcd : c = d := by
    rw [hi] at hj
    exact Option.some.inj hj
  subst hcd
  exact ⟨rfl, by omega, by omega⟩

theorem glyphWrites_nodup (W : Nat) (gh : Int) (xo : Nat) (g : Glyph)
    (hinj : ∀ x y x' y', x < g.width → y < g.rows → x' < g.width → y' < g.rows →
      textureAddr W gh xo g x y = textureAddr W gh xo g x' y' → x = x' ∧ y = y') :
    ((glyphWrites W gh xo g).map Prod.fst).Nodup := by
  unfold glyphWrites
  rw [List.map_map]
  apply List.Nodup.map_on _ (List.Nodup.product (List.nodup_range _) (List.nodup_range _))
  rintro ⟨y, x⟩ hp ⟨y', x'⟩ hp' h
  have hp2 : y ∈ List.range g.rows ∧ x ∈ List.range g.width := List.mem_product.1 hp
  have hp2' : y' ∈ List.range g.rows ∧ x' ∈ List.range g.width := List.mem_product.1 hp'
  have hx := List.mem_range.1 hp2.2
  have hx' := List.mem_range.1 hp2'.2
  have hy := List.mem_range.1 hp2.1
  have hy' := List.mem_range.1 hp2'.1
  simp only [Function.comp] at h
  obtain ⟨e2, e1⟩ := hinj x y x' y' hx hy hx' hy' h
  rw [e1, e2]

/-- Without overflow, each cell is written at most once: no two writes of the
copy loop share an address. -/
theorem copyWrites_nodup (reload : Char → Glyph) (W : Nat) (gh gl : Int) (text : List Char)
    (xo : Nat)
    (hfit : ∀ c ∈ text, (reload c).bitmap_top ≤ gh ∧
      ((reload c).rows : Int) - (reload c).bitmap_top ≤ gl)
    (hH : gh + gl < 2 ^ 31)
    (hwidth : xo + totalWidth reload text ≤ W)
    (hsize : W * (gh + gl).toNat < 2 ^ 32) (hW : W < 2 ^ 32) :
    ((copyWrites reload W gh text xo).map Prod.fst).Nodup := by
  induction text generalizing xo with
  | nil => simp [copyWrites]
  | cons c cs ih =>
    have hinj := textureAddr_injective reload W gh gl (c :: cs) xo hfit hH hwidth hsize
    have hfits : ∀ d ∈ cs, (reload d).bitmap_top ≤ gh ∧
        ((reload d).rows : Int) - (reload d).bitmap_top ≤ gl :=
      fun d hd => hfit d (List.mem_cons_of_mem _ hd)
    rw [totalWidth_cons] at hwidth
    simp only [copyWrites, List.map_append]
    rw [List.nodup_append]
    refine ⟨?_, ih _ hfits ?_, ?_⟩
    · apply glyphWrites_nodup
      intro x y x' y' hx hy hx' hy' he
      have := hinj 0 c x y (by simp) hx hy 0 c x' y' (by simp) hx' hy'
        (by rw [xOffsetFrom_zero]; exact he)
      exact this.2
    · rw [wrapUnsigned_of_lt _ (by omega)]
      omega
    · intro a ha1 ha2
      rw [List.mem_map] at ha1 ha2
      obtain ⟨w1, hw1, rfl⟩ := ha1
      obtain ⟨w2, hw2, he⟩ := ha2
      rw [mem_glyphWrites] at hw1
      obtain ⟨x, y, hx, hy, rfl⟩ := hw1
      rw [mem_copyWrites] at hw2
      obtain ⟨i, d, x', y', hi, hx', hy', rfl⟩ := hw2
      have := hinj 0 c x y (by simp) hx hy (i + 1) d x' y' (by simpa using hi) hx' hy'
        (by rw [xOffsetFrom_zero, xOffsetFrom_cons_succ]; exact he.symm)
      omega

end Drawers.TextString
/-! ## `LoadText`: what the function returns -/

namespace Drawers.TextString

theorem letterPixValue_lt (g : Glyph) (x y : Nat) (h : ∀ b ∈ g.buffer, b < 256) :
    letterPixValue g x y < 256 := by
  unfold letterPixValue
  by_cases hi : wrapUnsigned (y * g.width + x) < g.buffer.length
  · rw [List.getD_eq_getElem g.buffer 0 hi]
    exact h _ (List.getElem_mem hi)
  · rw [List.getD_eq_default g.buffer 0 (Nat.le_of_not_lt hi)]
    decide

theorem getD_replicate_zero (n j : Nat) : (List.replicate n 0).getD j 0 = 0 := by
  by_cases hj : j < n
  · rw [List.getD_eq_getElem?_getD, List.getElem?_replicate_of_lt hj]
    rfl
  · rw [List.getD_eq_default _ 0 (by rw [List.length_replicate]; omega)]

/-- When the measuring loop returns `m`, `LoadText` returns the texture of
width `m.width` and height `glyphHeight + glyphLowth` whose buffer is the
zeroed array of the allocated size after the writes of the copy loop. -/
theorem LoadText_of_measure (texBits : Nat) (load : Char → Option Glyph)
    (reload : Char → Glyph) (width0 : Nat) (text : List Char) (m : Measure)
    (hm : measureLoop texBits load text (measureInit width0) = Except.ok m) :
    LoadText texBits load reload width0 text = Except.ok
      { texture :=
          { width := m.width,
            height := toBits texBits (wrapInt (m.glyphHeight + m.glyphLowth)),
            buffer := (copyWrites reload m.width m.glyphHeight text 0).foldl
              (fun b w => addPixel b w.1 w.2)
              (List.replicate
                (bufferBytes texBits m.width
                  (toBits texBits (wrapInt (m.glyphHeight + m.glyphLowth)))) 0) },
        charCount := m.charCount,
        quadCount := m.charCount,
        vertexCount := wrapInt (m.charCount * 4) } := by
  simp only [LoadText, hm, copyLoop_eq_foldl]

/-- The members of the texture `LoadText` returns, one by one. -/
theorem LoadText_fields (texBits : Nat) (load : Char → Option Glyph)
    (reload : Char → Glyph) (width0 : Nat) (text : List Char) (m : Measure)
    (hm : measureLoop texBits load text (measureInit width0) = Except.ok m) :
    ∃ r, LoadText texBits load reload width0 text = Except.ok r ∧
      r.texture.width = m.width ∧
      r.texture.height = toBits texBits (wrapInt (m.glyphHeight + m.glyphLowth)) ∧
      r.texture.buffer.length =
        bufferBytes texBits m.width
          (toBits texBits (wrapInt (m.glyphHeight + m.glyphLowth))) ∧
      r.texture.buffer =
        (copyWrites reload m.width m.glyphHeight text 0).foldl
          (fun b w => addPixel b w.1 w.2)
          (List.replicate
            (bufferBytes texBits m.width
              (toBits texBits (wrapInt (m.glyphHeight + m.glyphLowth)))) 0) := by
  refine ⟨_, LoadText_of_measure texBits load reload width0 text m hm, rfl, rfl, ?_, rfl⟩
  simp only
  rw [length_foldl_addPixel, List.length_replicate]

/-- What a fitting texture gives the measuring loop and the allocation: the
exact width and height, every glyph inside the rows, and a buffer of
width times height bytes. -/
theorem fits_facts (texBits : Nat) (hbits : 32 ≤ texBits)
    (load : Char → Option Glyph) (reload : Char → Glyph)
    (width0 : Nat) (text : List Char) (h : SameMetrics load reload text)
    (hfit : FitsInt reload width0 text) :
    ∃ m, measureLoop texBits load text (measureInit width0) = Except.ok m ∧
      m.width = width0 + totalWidth reload text ∧
      m.glyphHeight = maxTop reload text ∧
      m.glyphLowth = maxLow reload text ∧
      (∀ c ∈ text, (reload c).bitmap_top ≤ m.glyphHeight ∧
        ((reload c).rows : Int) - (reload c).bitmap_top ≤ m.glyphLowth) ∧
      0 ≤ m.glyphHeight + m.glyphLowth ∧
      m.glyphHeight + m.glyphLowth < 2 ^ 31 ∧
      m.width * (m.glyphHeight + m.glyphLowth).toNat < 2 ^ 31 ∧
      m.width < 2 ^ 31 ∧
      toBits texBits (wrapInt (m.glyphHeight + m.glyphLowth)) =
        (m.glyphHeight + m.glyphLowth).toNat ∧
      bufferBytes texBits m.width (m.glyphHeight + m.glyphLowth).toNat =
        m.width * (m.glyphHeight + m.glyphLowth).toNat := by
  obtain ⟨m, hm, hwidth, hgh, hgl⟩ :=
    measureLoop_fits texBits hbits load reload width0 text h hfit
  have hpow := two_pow_32_le texBits hbits
  obtain ⟨hW, hH, hWH⟩ := hfit
  have h3 := maxTop_nonneg reload text
  have h4 := maxLow_nonneg reload text
  have hsize : m.width * (m.glyphHeight + m.glyphLowth).toNat < 2 ^ 31 := by
    have e : ((m.width * (m.glyphHeight + m.glyphLowth).toNat : Nat) : Int) =
        ((width0 + totalWidth reload text : Nat) : Int) *
          (maxTop reload text + maxLow reload text) := by
      rw [hwidth, hgh, hgl]
      push_cast
      rw [Int.toNat_of_nonneg (by omega)]
    have : ((m.width * (m.glyphHeight + m.glyphLowth).toNat : Nat) : Int) < 2 ^ 31 := by
      rw [e]
      exact hWH
    exact_mod_cast this
  refine ⟨m, hm, hwidth, hgh, hgl, ?_, by omega, by omega, hsize, by omega, ?_, ?_⟩
  · intro c hc
    rw [hgh, hgl]
    exact ⟨le_maxTop reload text c hc, le_maxLow reload text c hc⟩
  · rw [wrapInt_of_range _ (by omega) (by omega)]
    exact toBits_of_nonneg _ _ (by omega) (by omega)
  · exact wrapBits_of_lt _ _ (by omega)

end Drawers.TextString
/-! ## Theorems: `LoadText` on a texture that fits 32-bit arithmetic -/

namespace Drawers.TextString

/-- C14, amended: on a texture that fits 32-bit arithmetic, `LoadText` never
writes outside the string texture. When each character loads and has the same
glyph metrics in the measuring pass and the copying pass, and the exact width
of the texture (the entry value of `_texture.width` plus the bitmap widths),
its exact height and their product are below `2 ^ 31`, the function returns,
its buffer has `_texture.width * _texture.height` bytes, and every index
`textureAddr = (glyphHeight - bitmap_top + y) * _texture.width + xOffset + x`
written in the copy loop, for every glyph of the text and every `(x, y)` inside
its bitmap, satisfies `textureAddr < _texture.width * _texture.height`. This
holds whatever `_texture.width` is on entry, in particular for 0, and whatever
integer type of 32 bits or more `_texture.width` and `_texture.height` have. -/
theorem loadText_writes_in_bounds_of_fits (texBits : Nat) (load : Char → Option Glyph)
    (reload : Char → Glyph) (width0 : Nat) (text : List Char) (hbits : 32 ≤ texBits)
    (h : SameMetrics load reload text) (hfit : FitsInt reload width0 text) :
    ∃ m r, measureLoop texBits load text (measureInit width0) = Except.ok m ∧
      LoadText texBits load reload width0 text = Except.ok r ∧
      r.texture.width = m.width ∧
      r.texture.width = width0 + totalWidth reload text ∧
      (r.texture.height : Int) = m.glyphHeight + m.glyphLowth ∧
      r.texture.buffer.length = r.texture.width * r.texture.height ∧
      r.texture.buffer =
        (copyWrites reload m.width m.glyphHeight text 0).foldl
          (fun b w => addPixel b w.1 w.2)
          (List.replicate (r.texture.width * r.texture.height) 0) ∧
      (∀ w ∈ copyWrites reload m.width m.glyphHeight text 0,
        w.1 < r.texture.width * r.texture.height ∧ w.1 < r.texture.buffer.length) ∧
      (∀ i c x y, text[i]? = some c → x < (reload c).width → y < (reload c).rows →
        ((textureAddr m.width m.glyphHeight (xOffsetAt reload text i) (reload c) x y : Nat) :
            Int) =
          (m.glyphHeight - (reload c).bitmap_top + (y : Int)) * (r.texture.width : Int) +
            (xOffsetAt reload text i : Int) + (x : Int) ∧
        textureAddr m.width m.glyphHeight (xOffsetAt reload text i) (reload c) x y <
          r.texture.width * r.texture.height) := by
  obtain ⟨m, hm, hwidth, _, _, hglyph, hH0, hH, hsize, hW, hheight, hbytes⟩ :=
    fits_facts texBits hbits load reload width0 text h hfit
  have hsum : 0 + totalWidth reload text ≤ m.width := by omega
  have hL := LoadText_of_measure texBits load reload width0 text m hm
  rw [hheight, hbytes] at hL
  have hbound := copyWrites_in_bounds reload m.width m.glyphHeight m.glyphLowth text 0 hglyph hH
    hsum (by omega)
  have hlen : ((copyWrites reload m.width m.glyphHeight text 0).foldl
      (fun b w => addPixel b w.1 w.2)
      (List.replicate (m.width * (m.glyphHeight + m.glyphLowth).toNat) 0)).length =
      m.width * (m.glyphHeight + m.glyphLowth).toNat := by
    rw [length_foldl_addPixel, List.length_replicate]
  refine ⟨m, _, hm, hL, rfl, hwidth, Int.toNat_of_nonneg hH0, hlen, rfl, ?_, ?_⟩
  · intro w hw
    refine ⟨hbound w hw, ?_⟩
    show w.1 < List.length _
    rw [hlen]
    exact hbound w hw
  · intro i c x y hi hx hy
    obtain ⟨he, _, _, hlt⟩ := textureAddr_exact reload m.width m.glyphHeight m.glyphLowth text 0
      hglyph hH hsum (by omega) i c x y hi hx hy
    have hxo := xOffsetFrom_eq reload text 0 i c hi (by omega)
    have hc := hglyph c (mem_of_getElem?_eq_some text i c hi)
    unfold xOffsetAt
    constructor
    · rw [he, hxo]
      show _ = (m.glyphHeight - (reload c).bitmap_top + (y : Int)) * (m.width : Int) + _ + _
      push_cast
      rw [Int.toNat_of_nonneg (by omega)]
      ring
    · rw [he]
      exact hlt

/-- Witness of C14, amended: the text "Hj" in the small font, `_texture.width`
0 on entry. -/
theorem loadText_writes_in_bounds_of_fits_witness :
    SameMetrics sampleLoad sampleReload ['H', 'j'] ∧
    FitsInt sampleReload 0 ['H', 'j'] ∧
    ∃ m r, measureLoop 32 sampleLoad ['H', 'j'] (measureInit 0) = Except.ok m ∧
      LoadText 32 sampleLoad sampleReload 0 ['H', 'j'] = Except.ok r ∧
      r.texture.buffer.length = r.texture.width * r.texture.height ∧
      ∀ w ∈ copyWrites sampleReload m.width m.glyphHeight ['H', 'j'] 0,
        w.1 < r.texture.width * r.texture.height ∧ w.1 < r.texture.buffer.length := by
  have hs : SameMetrics sampleLoad sampleReload ['H', 'j'] := by
    intro c hc
    refine ⟨sampleReload c, ?_, rfl⟩
    simp only [List.mem_cons, List.mem_singleton, List.not_mem_nil, or_false] at hc
    simp only [sampleLoad, hc, if_true]
  have hf : FitsInt sampleReload 0 ['H', 'j'] := by
    unfold FitsInt
    decide
  obtain ⟨m, r, h1, h2, _, _, _, h6, _, h8, _⟩ :=
    loadText_writes_in_bounds_of_fits 32 sampleLoad sampleReload 0 ['H', 'j'] (le_refl _) hs hf
  exact ⟨hs, hf, m, r, h1, h2, h6, h8⟩

/-- C15, amended: on a texture that fits 32-bit arithmetic (exact width,
exact height and their product below `2 ^ 31`), after `LoadText`, with glyph
loads repeatable, the texture is the glyph bitmaps laid side by side on a
common baseline: for the `i`-th glyph and every `(x, y)` in its bitmap the cell
`(glyphHeight - top_i + y) * W + (sum of the widths of the glyphs before i) + x`
holds `bitmap_i[y * width_i + x]`, and every cell covered by no glyph is 0.
Each cell is written at most once, so just before every write the cell holds 0,
the `+=` never wraps modulo 256, and the result is that of plain assignment.
This holds whatever `_texture.width` is on entry, in particular for 0, and
whatever integer type of 32 bits or more `_texture.width` and
`_texture.height` have. -/
theorem loadText_texture_layout_of_fits (texBits : Nat) (load : Char → Option Glyph)
    (reload : Char → Glyph) (width0 : Nat) (text : List Char) (hbits : 32 ≤ texBits)
    (h : Repeatable load reload text) (hfit : FitsInt reload width0 text) :
    ∃ m r, measureLoop texBits load text (measureInit width0) = Except.ok m ∧
      LoadText texBits load reload width0 text = Except.ok r ∧
      r.texture.width = width0 + totalWidth reload text ∧
      (∀ i c x y, text[i]? = some c → x < (reload c).width → y < (reload c).rows →
        xOffsetAt reload text i = totalWidth reload (text.take i) ∧
        ((textureAddr m.width m.glyphHeight (xOffsetAt reload text i) (reload c) x y : Nat) :
            Int) =
          (m.glyphHeight - (reload c).bitmap_top + (y : Int)) * (r.texture.width : Int) +
            (totalWidth reload (text.take i) : Int) + (x : Int) ∧
        textureAddr m.width m.glyphHeight (xOffsetAt reload text i) (reload c) x y <
          r.texture.buffer.length ∧
        r.texture.buffer.getD
          (textureAddr m.width m.glyphHeight (xOffsetAt reload text i) (reload c) x y) 0 =
            (reload c).buffer.getD (y * (reload c).width + x) 0) ∧
      (∀ a : Nat, a < r.texture.buffer.length →
        (∀ i c x y, text[i]? = some c → x < (reload c).width → y < (reload c).rows →
          textureAddr m.width m.glyphHeight (xOffsetAt reload text i) (reload c) x y ≠ a) →
        r.texture.buffer.getD a 0 = 0) ∧
      ((copyWrites reload m.width m.glyphHeight text 0).map Prod.fst).Nodup ∧
      (∀ i c x y j d x' y', text[i]? = some c → x < (reload c).width → y < (reload c).rows →
        text[j]? = some d → x' < (reload d).width → y' < (reload d).rows →
        textureAddr m.width m.glyphHeight (xOffsetAt reload text i) (reload c) x y =
          textureAddr m.width m.glyphHeight (xOffsetAt reload text j) (reload d) x' y' →
        i = j ∧ x = x' ∧ y = y') ∧
      (∀ pre w post, copyWrites reload m.width m.glyphHeight text 0 = pre ++ w :: post →
        (pre.foldl (fun b w => addPixel b w.1 w.2)
          (List.replicate (r.texture.width * r.texture.height) 0)).getD w.1 0 = 0 ∧
        (pre.foldl (fun b w => addPixel b w.1 w.2)
          (List.replicate (r.texture.width * r.texture.height) 0)).getD w.1 0 + w.2 < 256) ∧
      r.texture.buffer =
        (copyWrites reload m.width m.glyphHeight text 0).foldl
          (fun b w => setPixel b w.1 w.2)
          (List.replicate (r.texture.width * r.texture.height) 0) := by
  obtain ⟨m, hm, hwidth, _, _, hglyph, hH0, hH, hsize, hW, hheight, hbytes⟩ :=
    fits_facts texBits hbits load reload width0 text h.sameMetrics hfit
  have hsum : 0 + totalWidth reload text ≤ m.width := by omega
  have hL := LoadText_of_measure texBits load reload width0 text m hm
  rw [hheight, hbytes] at hL
  have hbound := copyWrites_in_bounds reload m.width m.glyphHeight m.glyphLowth text 0 hglyph hH
    hsum (by omega)
  have hnd := copyWrites_nodup reload m.width m.glyphHeight m.glyphLowth text 0 hglyph hH hsum
    (by omega) (by omega)
  have hval : ∀ w ∈ copyWrites reload m.width m.glyphHeight text 0, w.2 < 256 := by
    intro w hw
    rw [mem_copyWrites] at hw
    obtain ⟨i, c, x, y, hi, _, _, rfl⟩ := hw
    exact letterPixValue_lt _ _ _ (h c (mem_of_getElem?_eq_some text i c hi)).2
  have hin : ∀ w ∈ copyWrites reload m.width m.glyphHeight text 0,
      w.1 < (List.replicate (m.width * (m.glyphHeight + m.glyphLowth).toNat) 0).length := by
    intro w hw
    rw [List.length_replicate]
    exact hbound w hw
  have hlen : ((copyWrites reload m.width m.glyphHeight text 0).foldl
      (fun b w => addPixel b w.1 w.2)
      (List.replicate (m.width * (m.glyphHeight + m.glyphLowth).toNat) 0)).length =
      m.width * (m.glyphHeight + m.glyphLowth).toNat := by
    rw [length_foldl_addPixel, List.length_replicate]
  refine ⟨m, _, hm, hL, hwidth, ?_, ?_, hnd, ?_, ?_, ?_⟩
  · intro i c x y hi hx hy
    have hmem : (textureAddr m.width m.glyphHeight (xOffsetAt reload text i) (reload c) x y,
        letterPixValue (reload c) x y) ∈ copyWrites reload m.width m.glyphHeight text 0 := by
      rw [mem_copyWrites]
      exact ⟨i, c, x, y, hi, hx, hy, rfl⟩
    obtain ⟨he, hrow, hcol, hlt⟩ := textureAddr_exact reload m.width m.glyphHeight m.glyphLowth
      text 0 hglyph hH hsum (by omega) i c x y hi hx hy
    have hxo := xOffsetFrom_eq reload text 0 i c hi (by omega)
    have hc := hglyph c (mem_of_getElem?_eq_some text i c hi)
    have hxo' : xOffsetAt reload text i = totalWidth reload (text.take i) := by
      unfold xOffsetAt
      rw [hxo, Nat.zero_add]
    refine ⟨hxo', ?_, ?_, ?_⟩
    · unfold xOffsetAt
      rw [he]
      show _ = (m.glyphHeight - (reload c).bitmap_top + (y : Int)) * (m.width : Int) + _ + _
      push_cast
      rw [Int.toNat_of_nonneg (by omega)]
      ring
    · show _ < List.length _
      rw [hlen]
      exact hbound _ hmem
    · have hg := getD_foldl_addPixel_of_mem _ _ hnd hin _ hmem
      simp only at hg ⊢
      rw [hg, getD_replicate_zero, Nat.zero_add, Nat.mod_eq_of_lt (hval _ hmem)]
      unfold letterPixValue
      have hrows : (reload c).rows ≤ (m.glyphHeight + m.glyphLowth).toNat := by omega
      have hcw : (reload c).width ≤ m.width := by omega
      have h1 := cell_lt (reload c).width (reload c).rows y x hx hy
      have h2 : (reload c).width * (reload c).rows ≤
          m.width * (m.glyphHeight + m.glyphLowth).toNat := Nat.mul_le_mul hcw hrows
      rw [wrapUnsigned_of_lt _ (by omega)]
  · intro a _ hfree
    simp only
    rw [getD_foldl_addPixel_of_not_mem, getD_replicate_zero]
    intro w hw
    rw [mem_copyWrites] at hw
    obtain ⟨i, c, x, y, hi, hx, hy, rfl⟩ := hw
    exact hfree i c x y hi hx hy
  · intro i c x y j d x' y' hi hx hy hj hx' hy' he
    exact textureAddr_injective reload m.width m.glyphHeight m.glyphLowth text 0 hglyph hH hsum
      (by omega) i c x y hi hx hy j d x' y' hj hx' hy' he
  · intro pre w post hsplit
    have hw : w ∈ copyWrites reload m.width m.glyphHeight text 0 := by
      rw [hsplit]
      exact List.mem_append_right _ (List.mem_cons_self _ _)
    have hzero : (pre.foldl (fun b w => addPixel b w.1 w.2)
        (List.replicate (m.width * (m.glyphHeight + m.glyphLowth).toNat) 0)).getD w.1 0 = 0 := by
      rw [getD_foldl_addPixel_of_not_mem, getD_replicate_zero]
      intro u hu he
      rw [hsplit, List.map_append, List.map_cons, List.nodup_append] at hnd
      exact hnd.2.2 (List.mem_map_of_mem Prod.fst hu)
        (by rw [he]; exact List.mem_cons_self _ _)
    refine ⟨hzero, ?_⟩
    show (pre.foldl (fun b w => addPixel b w.1 w.2)
        (List.replicate (m.width * (m.glyphHeight + m.glyphLowth).toNat) 0)).getD w.1 0 + w.2
          < 256
    rw [hzero, Nat.zero_add]
    exact hval w hw
  · simp only
    apply foldl_addPixel_eq_setPixel _ _ hnd
    intro w _
    exact getD_replicate_zero _ _

/-- Witness of C15, amended: the text "Hj" in the small font gives a texture 3
wide and 5 high, the two bitmaps side by side on the baseline. -/
theorem loadText_texture_layout_of_fits_witness :
    Repeatable sampleLoad sampleReload ['H', 'j'] ∧
    FitsInt sampleReload 0 ['H', 'j'] ∧
    (LoadText 32 sampleLoad sampleReload 0 ['H', 'j'] = Except.ok
      { texture := { width := 3, height := 5,
                     buffer := [255, 0, 0, 255, 255, 9, 255, 0, 0, 0, 0, 9, 0, 0, 9] },
        charCount := 2, quadCount := 2, vertexCount := 8 }) ∧
    ∃ m r, measureLoop 32 sampleLoad ['H', 'j'] (measureInit 0) = Except.ok m ∧
      LoadText 32 sampleLoad sampleReload 0 ['H', 'j'] = Except.ok r ∧
      ((copyWrites sampleReload m.width m.glyphHeight ['H', 'j'] 0).map Prod.fst).Nodup ∧
      r.texture.buffer =
        (copyWrites sampleReload m.width m.glyphHeight ['H', 'j'] 0).foldl
          (fun b w => setPixel b w.1 w.2)
          (List.replicate (r.texture.width * r.texture.height) 0) := by
  have hr : Repeatable sampleLoad sampleReload ['H', 'j'] := by
    intro c hc
    simp only [List.mem_cons, List.mem_singleton, List.not_mem_nil, or_false] at hc
    constructor
    · simp only [sampleLoad, hc, if_true]
    · rcases hc with hc | hc <;> rw [hc] <;> decide
  have hf : FitsInt sampleReload 0 ['H', 'j'] := by
    unfold FitsInt
    decide
  obtain ⟨m, r, h1, h2, _, _, _, h6, _, _, h9⟩ :=
    loadText_texture_layout_of_fits 32 sampleLoad sampleReload 0 ['H', 'j'] (le_refl _) hr hf
  exact ⟨hr, hf, rfl, m, r, h1, h2, h6, h9⟩

end Drawers.TextString
/-! ## `LoadText` on a texture of more than `2 ^ 32` bytes -/

namespace Drawers.TextString

theorem totalWidth_replicate (reload : Char → Glyph) (n : Nat) (c : Char) :
    totalWidth reload (List.replicate n c) = n * (reload c).width := by
  induction n with
  | zero => simp [totalWidth]
  | succ n ih =>
    rw [List.replicate_succ, totalWidth_cons, ih, Nat.succ_mul, Nat.add_comm]

theorem squareReload_width (c : Char) : (squareReload c).width = 64 := rfl

theorem squareReload_rows (c : Char) : (squareReload c).rows = 64 := rfl

theorem squareReload_top (c : Char) : (squareReload c).bitmap_top = 64 := rfl

theorem squareReload_cast (c : Char) :
    -(2 ^ 31) ≤ ((squareReload c).rows : Int) - (squareReload c).bitmap_top ∧
      ((squareReload c).rows : Int) - (squareReload c).bitmap_top < 2 ^ 31 := by
  rw [squareReload_rows, squareReload_top]
  constructor <;> norm_num

theorem mem_longText : 'M' ∈ longText :=
  List.mem_replicate.2 ⟨by norm_num, rfl⟩

theorem getElem?_longText (i : Nat) (h : i < 1065300) : longText[i]? = some 'M' :=
  List.getElem?_replicate_of_lt h

theorem sameMetrics_square (text : List Char) : SameMetrics squareLoad squareReload text :=
  fun c _ => ⟨squareReload c, rfl, rfl⟩

theorem repeatable_square (text : List Char) : Repeatable squareLoad squareReload text := by
  intro c _
  refine ⟨rfl, ?_⟩
  intro b hb
  have : b = 255 := List.eq_of_mem_replicate hb
  omega

theorem totalWidth_longText : totalWidth squareReload longText = 68179200 :=
  totalWidth_replicate squareReload 1065300 'M'

/-- The measuring loop on the long text: 1065300 glyphs of width 64 give the
width 68179200, and the height is 64 above the baseline and 0 below. -/
theorem measureLoop_longText (texBits : Nat) (hbits : 32 ≤ texBits) :
    ∃ m, measureLoop texBits squareLoad longText (measureInit 0) = Except.ok m ∧
      m.width = 68179200 ∧ m.glyphHeight = 64 ∧ m.glyphLowth = 0 := by
  have hpow := two_pow_32_le texBits hbits
  obtain ⟨m, hm, hwidth, hgh, hgl⟩ := measureLoop_ok texBits squareLoad squareReload longText
    (sameMetrics_square _) (fun c _ => squareReload_cast c) (measureInit 0)
    (by show 0 < 2 ^ texBits; omega)
  refine ⟨m, hm, ?_, ?_, ?_⟩
  · rw [hwidth, totalWidth_longText]
    show wrapBits texBits (0 + 68179200) = 68179200
    exact wrapBits_of_lt _ _ (by omega)
  · rw [hgh]
    apply le_antisymm
    · exact foldl_max_le (fun c => (squareReload c).bitmap_top) longText 0 64 (by decide)
        (fun c _ => le_refl _)
    · exact foldl_max_ge_mem (fun c => (squareReload c).bitmap_top) longText 0 'M' mem_longText
  · rw [hgl]
    apply le_antisymm
    · exact foldl_max_le (fun c => ((squareReload c).rows : Int) - (squareReload c).bitmap_top)
        longText 0 0 (le_refl _) (fun c _ => by
          show ((squareReload c).rows : Int) - (squareReload c).bitmap_top ≤ 0
          rw [squareReload_rows, squareReload_top]
          norm_num)
    · exact foldl_max_ge_init _ longText 0

theorem xOffsetAt_longText (i : Nat) (h : i ≤ 1065300) :
    xOffsetAt squareReload longText i = wrapUnsigned (i * 64) := by
  unfold xOffsetAt
  rw [xOffsetFrom_eq_wrap squareReload longText 0 i (by norm_num)]
  unfold longText
  rw [List.take_replicate, Nat.min_eq_left h, totalWidth_replicate, Nat.zero_add,
    squareReload_width]

/-- What `LoadText` returns on the long text: a texture 68179200 wide and 64
high whose buffer has as many bytes as the product is in the type of the
members. -/
theorem loadText_longText (texBits : Nat) (hbits : 32 ≤ texBits) :
    ∃ m r, measureLoop texBits squareLoad longText (measureInit 0) = Except.ok m ∧
      LoadText texBits squareLoad squareReload 0 longText = Except.ok r ∧
      m.width = 68179200 ∧ m.glyphHeight = 64 ∧
      r.texture.width = 68179200 ∧ r.texture.height = 64 ∧
      r.texture.buffer.length = wrapBits texBits 4363468800 ∧
      r.texture.buffer =
        (copyWrites squareReload m.width m.glyphHeight longText 0).foldl
          (fun b w => addPixel b w.1 w.2)
          (List.replicate r.texture.buffer.length 0) := by
  have hpow := two_pow_32_le texBits hbits
  obtain ⟨m, hm, hw, hgh, hgl⟩ := measureLoop_longText texBits hbits
  obtain ⟨r, hr, hrw, hrh, hrl, hrb⟩ :=
    LoadText_fields texBits squareLoad squareReload 0 longText m hm
  have hheight : toBits texBits (wrapInt ((64 : Int) + 0)) = 64 := by
    rw [wrapInt_of_range _ (by norm_num) (by norm_num)]
    rw [toBits_of_nonneg _ _ (by norm_num) (by show 64 < 2 ^ texBits; omega)]
    rfl
  have hbytes : bufferBytes texBits 68179200 64 = wrapBits texBits 4363468800 := rfl
  rw [← hrl] at hrb
  rw [hgh, hgl, hheight] at hrh
  rw [hw, hgh, hgl, hheight, hbytes] at hrl
  rw [hw] at hrw
  exact ⟨m, r, hm, hr, hw, hgh, hrw, hrh, hrl, hrb⟩

theorem textureAddr_lt (W : Nat) (gh : Int) (xo : Nat) (g : Glyph) (x y : Nat) :
    textureAddr W gh xo g x y < 2 ^ 32 :=
  wrapUnsigned_lt _

/-- The long text whatever the type of the members of `_texture`: pixel
`(0, 63)` of the first glyph and pixel `(0, 0)` of the glyph at position 5036
are both written at index 322304, inside the buffer, and the cell
`63 * 68179200` that the layout gives the first of them does not hold its
byte. -/
theorem longText_collision (texBits : Nat) (hbits : 32 ≤ texBits) :
    ∃ m r, measureLoop texBits squareLoad longText (measureInit 0) = Except.ok m ∧
      LoadText texBits squareLoad squareReload 0 longText = Except.ok r ∧
      r.texture.width = 68179200 ∧ r.texture.height = 64 ∧
      r.texture.buffer.length = wrapBits texBits 4363468800 ∧
      r.texture.buffer.getD (63 * r.texture.width + 0 + 0) 0 ≠
        (squareReload 'M').buffer.getD (63 * (squareReload 'M').width + 0) 0 ∧
      textureAddr m.width m.glyphHeight (xOffsetAt squareReload longText 0)
        (squareReload 'M') 0 63 = 322304 ∧
      textureAddr m.width m.glyphHeight (xOffsetAt squareReload longText 5036)
        (squareReload 'M') 0 0 = 322304 ∧
      322304 < r.texture.buffer.length ∧
      ¬ ((copyWrites squareReload m.width m.glyphHeight longText 0).map Prod.fst).Nodup := by
  obtain ⟨m, r, hm, hr, hw, hgh, hrw, hrh, hrl, hrb⟩ := loadText_longText texBits hbits
  have ha1 : textureAddr m.width m.glyphHeight (xOffsetAt squareReload longText 0)
      (squareReload 'M') 0 63 = 322304 := by
    rw [hw, hgh, xOffsetAt_longText 0 (by norm_num)]
    norm_num [textureAddr, wrapInt, toInt, toUnsigned, wrapUnsigned, squareReload_top]
  have ha2 : textureAddr m.width m.glyphHeight (xOffsetAt squareReload longText 5036)
      (squareReload 'M') 0 0 = 322304 := by
    rw [hw, hgh, xOffsetAt_longText 5036 (by norm_num)]
    norm_num [textureAddr, wrapInt, toInt, toUnsigned, wrapUnsigned, squareReload_top]
  have hx : 0 < (squareReload 'M').width := by rw [squareReload_width]; norm_num
  have hy : 63 < (squareReload 'M').rows := by rw [squareReload_rows]; norm_num
  have hy0 : 0 < (squareReload 'M').rows := by rw [squareReload_rows]; norm_num
  refine ⟨m, r, hm, hr, hrw, hrh, hrl, ?_, ha1, ha2, ?_, ?_⟩
  · rw [hrb, hrw, getD_foldl_addPixel_of_not_mem, getD_replicate_zero, squareReload_width]
    · show (0 : Nat) ≠ (List.replicate 4096 255).getD (63 * 64 + 0) 0
      rw [List.getD_eq_getElem?_getD, List.getElem?_replicate_of_lt (by norm_num)]
      exact fun h => absurd h (by decide)
    · intro w hw' he
      rw [mem_copyWrites] at hw'
      obtain ⟨i, c, x, y, _, _, _, rfl⟩ := hw'
      have := textureAddr_lt m.width m.glyphHeight (xOffsetFrom squareReload longText 0 i)
        (squareReload c) x y
      simp only at he
      omega
  · rw [hrl]
    rcases Nat.eq_or_lt_of_le hbits with h32 | h33
    · rw [← h32]
      norm_num [wrapBits]
    · have hpow : 2 ^ 33 ≤ 2 ^ texBits := Nat.pow_le_pow_right (by decide) h33
      rw [wrapBits_of_lt _ _ (by omega)]
      norm_num
  · intro hnd
    have hcons : longText = 'M' :: List.replicate 1065299 'M' := rfl
    rw [hcons, copyWrites_cons, List.map_append, List.nodup_append] at hnd
    have h1 : 322304 ∈ List.map Prod.fst
        (glyphWrites m.width m.glyphHeight 0 (squareReload 'M')) := by
      rw [List.mem_map]
      refine ⟨(322304, letterPixValue (squareReload 'M') 0 63), ?_, rfl⟩
      rw [mem_glyphWrites]
      refine ⟨0, 63, hx, hy, ?_⟩
      rw [← ha1, xOffsetAt_longText 0 (by norm_num)]
      rfl
    have h2 : 322304 ∈ List.map Prod.fst
        (copyWrites squareReload m.width m.glyphHeight (List.replicate 1065299 'M')
          (wrapUnsigned (0 + (squareReload 'M').width))) := by
      rw [List.mem_map]
      refine ⟨(322304, letterPixValue (squareReload 'M') 0 0), ?_, rfl⟩
      rw [mem_copyWrites]
      refine ⟨5035, 'M', 0, 0, List.getElem?_replicate_of_lt (by norm_num), hx, hy0, ?_⟩
      rw [← ha2, xOffsetAt_longText 5036 (by norm_num),
        xOffsetFrom_eq_wrap squareReload _ _ 5035 (wrapUnsigned_lt _), List.take_replicate,
        Nat.min_eq_left (by norm_num), totalWidth_replicate, squareReload_width,
        wrapUnsigned_add_left]
    exact hnd.2.2 h1 h2

/-- The text of one tall glyph, whatever the type of the members of
`_texture`: the cast of `bitmap.rows - bitmap_top` to `int` is negative, the
height of the texture is 0, no byte is allocated, and pixel `(0, 0)` is
written at index 0. -/
theorem loadText_tallGlyph (texBits : Nat) (hbits : 32 ≤ texBits) :
    ∃ m r, measureLoop texBits tallLoad ['I'] (measureInit 0) = Except.ok m ∧
      LoadText texBits tallLoad tallReload 0 ['I'] = Except.ok r ∧
      r.texture.width = 1 ∧ r.texture.height = 0 ∧
      r.texture.width * r.texture.height = 0 ∧
      r.texture.buffer.length = 0 ∧
      (textureAddr m.width m.glyphHeight (xOffsetAt tallReload ['I'] 0) (tallReload 'I') 0 0,
        letterPixValue (tallReload 'I') 0 0) ∈
          copyWrites tallReload m.width m.glyphHeight ['I'] 0 ∧
      textureAddr m.width m.glyphHeight (xOffsetAt tallReload ['I'] 0) (tallReload 'I') 0 0 = 0 ∧
      ¬ (textureAddr m.width m.glyphHeight (xOffsetAt tallReload ['I'] 0) (tallReload 'I') 0 0 <
        r.texture.width * r.texture.height) ∧
      ¬ (textureAddr m.width m.glyphHeight (xOffsetAt tallReload ['I'] 0) (tallReload 'I') 0 0 <
        r.texture.buffer.length) := by
  have hpow := two_pow_32_le texBits hbits
  have hlow : toInt (toUnsigned (((tallGlyph.rows : Nat) : Int) - tallGlyph.bitmap_top)) =
      -1073741824 := by
    rfl
  have hm : measureLoop texBits tallLoad ['I'] (measureInit 0) =
      Except.ok { width := 1, glyphHeight := 0, glyphLowth := 0, charCount := 1 } := by
    show Except.ok (measureStep texBits (measureInit 0) tallGlyph) = _
    unfold measureStep
    rw [hlow]
    have h1 : wrapBits texBits ((measureInit 0).width + tallGlyph.width) = 1 :=
      wrapBits_of_lt _ _ (by show 0 + 1 < 2 ^ texBits; omega)
    rw [h1]
    rfl
  obtain ⟨r, hr, hrw, hrh, hrl, _⟩ :=
    LoadText_fields texBits tallLoad tallReload 0 ['I'] _ hm
  have hheight : toBits texBits (wrapInt ((0 : Int) + 0)) = 0 := by
    rw [wrapInt_of_range _ (by norm_num) (by norm_num)]
    rw [toBits_of_nonneg _ _ (by norm_num) (by show 0 < 2 ^ texBits; omega)]
    rfl
  have hbytes : bufferBytes texBits 1 0 = 0 := by
    show wrapBits texBits (1 * 0) = 0
    exact wrapBits_of_lt _ _ (by omega)
  simp only at hrw hrh hrl
  rw [hheight] at hrh
  rw [hheight, hbytes] at hrl
  have haddr : textureAddr 1 0 (xOffsetAt tallReload ['I'] 0) (tallReload 'I') 0 0 = 0 := by
    norm_num [textureAddr, wrapInt, toInt, toUnsigned, wrapUnsigned, xOffsetAt, xOffsetFrom,
      tallReload, tallGlyph]
  refine ⟨_, r, hm, hr, hrw, hrh, by rw [hrw, hrh], hrl, ?_, haddr, ?_, ?_⟩
  · rw [mem_copyWrites]
    exact ⟨0, 'I', 0, 0, rfl, by norm_num [tallReload, tallGlyph],
      by norm_num [tallReload, tallGlyph], rfl⟩
  · show ¬ (textureAddr 1 0 (xOffsetAt tallReload ['I'] 0) (tallReload 'I') 0 0 < _)
    rw [haddr, hrw, hrh]
    norm_num
  · show ¬ (textureAddr 1 0 (xOffsetAt tallReload ['I'] 0) (tallReload 'I') 0 0 < _)
    rw [haddr, hrl]
    norm_num

end Drawers.TextString

/-! ## Theorems: `LoadText` on a texture of more than `2 ^ 32` bytes -/

namespace Drawers.TextString

/-- C14, as it fails, on two inputs with `_texture.width` 0 on entry and the
same metrics in both passes. First, the text of 1065300 characters in the font
of 64 by 64 glyphs, the members of `_texture` being 32 bits wide: the texture
is 68179200 wide and 64 high, more than `2 ^ 32` cells; the 32-bit product
`_texture.width * _texture.height` is 68501504, that many bytes are allocated,
and the copy loop writes pixel `(0, 2)` of the first glyph at index 136358400,
which is not below 68501504. Second, the text of one glyph of 3221225472 rows,
the members of `_texture` being 32 or 64 bits wide: the height of the texture
is 0, no byte is allocated, and pixel `(0, 0)` is written at index 0. -/
theorem loadText_writes_out_of_bounds :
    (SameMetrics squareLoad squareReload longText ∧
    ∃ m r, measureLoop 32 squareLoad longText (measureInit 0) = Except.ok m ∧
      LoadText 32 squareLoad squareReload 0 longText = Except.ok r ∧
      r.texture.width = 68179200 ∧ r.texture.height = 64 ∧
      bufferBytes 32 r.texture.width r.texture.height = 68501504 ∧
      r.texture.buffer.length = 68501504 ∧
      longText[0]? = some 'M' ∧ 0 < (squareReload 'M').width ∧ 2 < (squareReload 'M').rows ∧
      (textureAddr m.width m.glyphHeight (xOffsetAt squareReload longText 0)
          (squareReload 'M') 0 2,
        letterPixValue (squareReload 'M') 0 2) ∈
          copyWrites squareReload m.width m.glyphHeight longText 0 ∧
      textureAddr m.width m.glyphHeight (xOffsetAt squareReload longText 0)
        (squareReload 'M') 0 2 = 136358400 ∧
      ¬ (textureAddr m.width m.glyphHeight (xOffsetAt squareReload longText 0)
        (squareReload 'M') 0 2 < bufferBytes 32 r.texture.width r.texture.height) ∧
      ¬ (textureAddr m.width m.glyphHeight (xOffsetAt squareReload longText 0)
        (squareReload 'M') 0 2 < r.texture.buffer.length)) ∧
    (SameMetrics tallLoad tallReload ['I'] ∧
      ['I'][0]? = some 'I' ∧ 0 < (tallReload 'I').width ∧ 0 < (tallReload 'I').rows ∧
      (∃ m r, measureLoop 32 tallLoad ['I'] (measureInit 0) = Except.ok m ∧
        LoadText 32 tallLoad tallReload 0 ['I'] = Except.ok r ∧
        r.texture.width * r.texture.height = 0 ∧ r.texture.buffer.length = 0 ∧
        (textureAddr m.width m.glyphHeight (xOffsetAt tallReload ['I'] 0) (tallReload 'I') 0 0,
          letterPixValue (tallReload 'I') 0 0) ∈
            copyWrites tallReload m.width m.glyphHeight ['I'] 0 ∧
        ¬ (textureAddr m.width m.glyphHeight (xOffsetAt tallReload ['I'] 0) (tallReload 'I')
          0 0 < r.texture.width * r.texture.height) ∧
        ¬ (textureAddr m.width m.glyphHeight (xOffsetAt tallReload ['I'] 0) (tallReload 'I')
          0 0 < r.texture.buffer.length)) ∧
      (∃ m r, measureLoop 64 tallLoad ['I'] (measureInit 0) = Except.ok m ∧
        LoadText 64 tallLoad tallReload 0 ['I'] = Except.ok r ∧
        r.texture.width * r.texture.height = 0 ∧ r.texture.buffer.length = 0 ∧
        (textureAddr m.width m.glyphHeight (xOffsetAt tallReload ['I'] 0) (tallReload 'I') 0 0,
          letterPixValue (tallReload 'I') 0 0) ∈
            copyWrites tallReload m.width m.glyphHeight ['I'] 0 ∧
        ¬ (textureAddr m.width m.glyphHeight (xOffsetAt tallReload ['I'] 0) (tallReload 'I')
          0 0 < r.texture.width * r.texture.height) ∧
        ¬ (textureAddr m.width m.glyphHeight (xOffsetAt tallReload ['I'] 0) (tallReload 'I')
          0 0 < r.texture.buffer.length))) := by
  refine ⟨?_, fun c _ => ⟨tallReload c, rfl, rfl⟩, rfl, by norm_num [tallReload, tallGlyph],
    by norm_num [tallReload, tallGlyph], ?_, ?_⟩
  · obtain ⟨m, r, hm, hr, hw, hgh, hrw, hrh, hrl, _⟩ := loadText_longText 32 (le_refl _)
    have hbytes : wrapBits 32 4363468800 = 68501504 := by norm_num [wrapBits]
    rw [hbytes] at hrl
    have hx : 0 < (squareReload 'M').width := by rw [squareReload_width]; norm_num
    have hy : 2 < (squareReload 'M').rows := by rw [squareReload_rows]; norm_num
    have haddr : textureAddr m.width m.glyphHeight (xOffsetAt squareReload longText 0)
        (squareReload 'M') 0 2 = 136358400 := by
      rw [hw, hgh, xOffsetAt_longText 0 (by norm_num)]
      norm_num [textureAddr, wrapInt, toInt, toUnsigned, wrapUnsigned, squareReload_top]
    have hprod : bufferBytes 32 r.texture.width r.texture.height = 68501504 := by
      rw [hrw, hrh]
      exact hbytes
    refine ⟨sameMetrics_square _, m, r, hm, hr, hrw, hrh, hprod, hrl,
      getElem?_longText 0 (by norm_num), hx, hy, ?_, haddr, ?_, ?_⟩
    · rw [mem_copyWrites]
      exact ⟨0, 'M', 0, 2, getElem?_longText 0 (by norm_num), hx, hy, rfl⟩
    · rw [haddr, hprod]
      norm_num
    · rw [haddr, hrl]
      norm_num
  · obtain ⟨m, r, hm, hr, _, _, hp, hl, hmem, _, h1, h2⟩ := loadText_tallGlyph 32 (le_refl _)
    exact ⟨m, r, hm, hr, hp, hl, hmem, h1, h2⟩
  · obtain ⟨m, r, hm, hr, _, _, hp, hl, hmem, _, h1, h2⟩ := loadText_tallGlyph 64 (by norm_num)
    exact ⟨m, r, hm, hr, hp, hl, hmem, h1, h2⟩

/-- C15, as it fails: the text of 1065300 characters in the font of 64 by 64
glyphs, `_texture.width` 0 on entry, glyph loads repeatable, the members of
`_texture` being 32 or 64 bits wide. The texture is 68179200 wide and 64 high.
The cell `63 * 68179200` that the layout gives pixel `(0, 63)` of the first
glyph does not hold the byte of the bitmap: the write of that pixel goes to
index 322304, inside the buffer, and so does the write of pixel `(0, 0)` of the
glyph at position 5036. The cell 322304 is written twice, and the indices of
the writes are not free of duplicates. With members of 32 bits the buffer has
68501504 bytes, and the cell `63 * 68179200` is outside it. -/
theorem loadText_cell_written_twice :
    Repeatable squareLoad squareReload longText ∧
    longText[0]? = some 'M' ∧ longText[5036]? = some 'M' ∧
    0 < (squareReload 'M').width ∧ 63 < (squareReload 'M').rows ∧
    (∃ m r, measureLoop 32 squareLoad longText (measureInit 0) = Except.ok m ∧
      LoadText 32 squareLoad squareReload 0 longText = Except.ok r ∧
      r.texture.width = 68179200 ∧ r.texture.height = 64 ∧
      r.texture.buffer.length = 68501504 ∧
      ¬ (63 * r.texture.width + 0 + 0 < r.texture.buffer.length) ∧
      r.texture.buffer.getD (63 * r.texture.width + 0 + 0) 0 ≠
        (squareReload 'M').buffer.getD (63 * (squareReload 'M').width + 0) 0 ∧
      textureAddr m.width m.glyphHeight (xOffsetAt squareReload longText 0)
        (squareReload 'M') 0 63 = 322304 ∧
      textureAddr m.width m.glyphHeight (xOffsetAt squareReload longText 5036)
        (squareReload 'M') 0 0 = 322304 ∧
      322304 < r.texture.buffer.length ∧
      ¬ ((copyWrites squareReload m.width m.glyphHeight longText 0).map Prod.fst).Nodup) ∧
    (∃ m r, measureLoop 64 squareLoad longText (measureInit 0) = Except.ok m ∧
      LoadText 64 squareLoad squareReload 0 longText = Except.ok r ∧
      r.texture.width = 68179200 ∧ r.texture.height = 64 ∧
      r.texture.buffer.length = 4363468800 ∧
      r.texture.buffer.getD (63 * r.texture.width + 0 + 0) 0 ≠
        (squareReload 'M').buffer.getD (63 * (squareReload 'M').width + 0) 0 ∧
      textureAddr m.width m.glyphHeight (xOffsetAt squareReload longText 0)
        (squareReload 'M') 0 63 = 322304 ∧
      textureAddr m.width m.glyphHeight (xOffsetAt squareReload longText 5036)
        (squareReload 'M') 0 0 = 322304 ∧
      322304 < r.texture.buffer.length ∧
      ¬ ((copyWrites squareReload m.width m.glyphHeight longText 0).map Prod.fst).Nodup) := by
  refine ⟨repeatable_square _, getElem?_longText 0 (by norm_num),
    getElem?_longText 5036 (by norm_num), by rw [squareReload_width]; norm_num,
    by rw [squareReload_rows]; norm_num, ?_, ?_⟩
  · obtain ⟨m, r, hm, hr, hrw, hrh, hrl, hne, ha1, ha2, hin, hnd⟩ :=
      longText_collision 32 (le_refl _)
    have hbytes : wrapBits 32 4363468800 = 68501504 := by norm_num [wrapBits]
    rw [hbytes] at hrl
    refine ⟨m, r, hm, hr, hrw, hrh, hrl, ?_, hne, ha1, ha2, hin, hnd⟩
    rw [hrw, hrl]
    norm_num
  · obtain ⟨m, r, hm, hr, hrw, hrh, hrl, hne, ha1, ha2, hin, hnd⟩ :=
      longText_collision 64 (by norm_num)
    have hbytes : wrapBits 64 4363468800 = 4363468800 := by norm_num [wrapBits]
    rw [hbytes] at hrl
    exact ⟨m, r, hm, hr, hrw, hrh, hrl, hne, ha1, ha2, hin, hnd⟩

end Drawers.TextString
